import Mathlib

/-!
Verification of the SimpleDataServer document store (`src/storage/file_manager.cpp`,
`src/handlers/api_handler.cpp`, `src/server/data_server.cpp`).

Strings are modelled as `List Char` (one `Char` per byte/code point of the C++
`std::string`).  JSON documents (`nlohmann::json` values) are modelled by the
mutual inductive `Json`; numbers are modelled as integers (floating point is out
of scope of the embedding).  The filesystem that `FileManager` manipulates is
modelled at exactly the granularity the code accesses it: a set of existing key
directories and a map from (key directory, file name) to file content.
-/

namespace SimpleDataServer

/-- Strings as lists of characters, mirroring `std::string`. -/
abbrev Str := List Char

/-- Convert a Lean string literal to the `Str` model. -/
def chars (s : String) : Str := s.toList

/-- The character `{` (written via its code point to keep it out of literals). -/
def lbrace : Char := Char.ofNat 123

/-- The character `}` (written via its code point to keep it out of literals). -/
def rbrace : Char := Char.ofNat 125

/-- The NUL character. -/
def nulChar : Char := Char.ofNat 0

/-- Lexicographic strict order on strings, as `std::string`'s `operator<`
(byte-wise comparison; here compared on code points). -/
def lexLt : Str → Str → Bool
  | [], [] => false
  | [], _ :: _ => true
  | _ :: _, [] => false
  | a :: as, b :: bs =>
    if a.toNat < b.toNat then true
    else if b.toNat < a.toNat then false
    else lexLt as bs

mutual
/-- Model of an `nlohmann::json` value.  Numbers are modelled as integers. -/
inductive Json where
  | null
  | bool (b : Bool)
  | num (n : Int)
  | str (s : Str)
  | arr (xs : JsonArr)
  | obj (kvs : JsonObj)
deriving DecidableEq

/-- A list of JSON values (the payload of a JSON array). -/
inductive JsonArr where
  | nil
  | cons (hd : Json) (tl : JsonArr)
deriving DecidableEq

/-- An association list of JSON object members.  `nlohmann::json` keeps object
members in a `std::map`, i.e. sorted by key and without duplicates; parsed and
dumped objects always satisfy that invariant (see `canonical`). -/
inductive JsonObj where
  | nil
  | cons (key : Str) (val : Json) (tl : JsonObj)
deriving DecidableEq
end

/-- Append two member lists. -/
def appendObj : JsonObj → JsonObj → JsonObj
  | .nil, m => m
  | .cons k v tl, m => .cons k v (appendObj tl m)

/-- Append an element at the end of an array payload. -/
def snocArr : JsonArr → Json → JsonArr
  | .nil, j => .cons j .nil
  | .cons x xs, j => .cons x (snocArr xs j)

/-- Append two array payloads. -/
def appendArr : JsonArr → JsonArr → JsonArr
  | .nil, m => m
  | .cons x xs, m => .cons x (appendArr xs m)

/-- Sorted-map insertion of an object member, as `std::map` insertion:
members stay sorted by key and an existing key is overwritten. -/
def insertObj (k : Str) (v : Json) : JsonObj → JsonObj
  | .nil => .cons k v .nil
  | .cons k' v' tl =>
    if lexLt k k' then .cons k v (.cons k' v' tl)
    else if k = k' then .cons k v tl
    else .cons k' v' (insertObj k v tl)

mutual
/-- The invariant every value produced by the `nlohmann::json` library
satisfies: object member lists are strictly sorted by key. -/
def canonical : Json → Bool
  | .null => true
  | .bool _ => true
  | .num _ => true
  | .str _ => true
  | .arr xs => canonicalArr xs
  | .obj kvs => canonicalObj kvs

/-- All elements of an array payload are canonical. -/
def canonicalArr : JsonArr → Bool
  | .nil => true
  | .cons x xs => canonical x && canonicalArr xs

/-- Object members are strictly sorted by key and their values canonical. -/
def canonicalObj : JsonObj → Bool
  | .nil => true
  | .cons k v tl => canonical v && keyBelow k tl && canonicalObj tl

/-- The key is strictly below the first key of the remaining members. -/
def keyBelow (k : Str) : JsonObj → Bool
  | .nil => true
  | .cons k' _ _ => lexLt k k'
end

/-! ## FileManager (`src/storage/file_manager.cpp`) -/

/-- `JSON_EXTENSION` from `file_manager.cpp`. -/
def JSON_EXTENSION : Str := chars ".json"

/-- `MAX_JSON_SIZE_BYTES` from `file_manager.cpp` (1 MiB). -/
def MAX_JSON_SIZE_BYTES : Nat := 1024 * 1024

/-- `is_valid_json_character`: `std::isalnum` (C locale, i.e. ASCII
alphanumeric) or `_` or `-`. -/
def is_valid_json_character (c : Char) : Bool :=
  c.isAlphanum || c = '_' || c = '-'

/-- Whether the last character pushed so far (`result.back()`) is a dot.
The accumulator is kept reversed, so `back` is the head. -/
def revBackIsDot : Str → Bool
  | [] => false
  | p :: _ => p = '.'

/-- The character loop of `FileManager::sanitize_filename`
(`file_manager.cpp:150-164`).  `acc` is the `result` string reversed
(`push_back` becomes `::`, `back()` becomes the head). -/
def sanitize_loop : Str → Str → Str
  | acc, [] => acc
  | acc, c :: rest =>
    if c = '/' || c = '\\' || c = nulChar then sanitize_loop acc rest
    else if c = '.' && revBackIsDot acc then sanitize_loop acc rest
    else if c = '.' then sanitize_loop ('_' :: acc) rest
    else if is_valid_json_character c then sanitize_loop (c :: acc) rest
    else sanitize_loop acc rest

/-- The trailing-strip loop of `FileManager::sanitize_filename`
(`file_manager.cpp:166-168`), acting on the reversed result: `pop_back`
on the result is dropping the head of its reversal. -/
def strip_trailing : Str → Str
  | [] => []
  | c :: rest => if c = '_' || c = '-' then strip_trailing rest else c :: rest

/-- `FileManager::sanitize_filename` (`file_manager.cpp:146-171`). -/
def sanitize_filename (filename : Str) : Str :=
  (strip_trailing (sanitize_loop [] filename)).reverse

/-- `FileManager::ensure_json_extension` (`file_manager.cpp:173-181`):
append `.json` unless the name already ends in it. -/
def ensure_json_extension (filename : Str) : Str :=
  if filename.length ≥ JSON_EXTENSION.length
      ∧ filename.drop (filename.length - JSON_EXTENSION.length) = JSON_EXTENSION
  then filename
  else filename ++ JSON_EXTENSION

/-- `FileManager::get_key_directory` (`file_manager.cpp:183-185`):
`data_directory + "/" + key`. -/
def get_key_directory (data_directory key : Str) : Str :=
  data_directory ++ '/' :: key

/-- `FileManager::get_file_path` (`file_manager.cpp:187-190`):
`get_key_directory(key) + "/" + filename`. -/
def get_file_path (data_directory key filename : Str) : Str :=
  get_key_directory data_directory key ++ '/' :: filename

/-- The errors of `FileError` (`file_manager.hpp`). -/
inductive FileError where
  | KeyDirectoryNotFound
  | FileNotFound
  | InvalidJson
  | FileTooLarge
  | InvalidFilename
  | IoError
  | JsonEncodingError
deriving DecidableEq

/-- The filesystem as the store accesses it: the set of existing key
directories (relative to the data directory) and the regular files inside
them, keyed by (key directory, file name). -/
structure FileSystem where
  dirs : List Str
  files : List ((Str × Str) × Str)
deriving DecidableEq

/-- `FileManager::key_directory_exists` (`file_manager.cpp:141-144`). -/
def key_directory_exists (fs : FileSystem) (key : Str) : Bool :=
  fs.dirs.contains key

/-- Reading a file's content (the `ifstream` read in `get_json`). -/
def read_file : List ((Str × Str) × Str) → Str → Str → Option Str
  | [], _, _ => none
  | ((k, f), content) :: rest, key, fname =>
    if k = key ∧ f = fname then some content else read_file rest key fname

/-- Whole-file overwrite (the `ofstream` write in `put_json`). -/
def write_file : List ((Str × Str) × Str) → Str → Str → Str → List ((Str × Str) × Str)
  | [], key, fname, content => [((key, fname), content)]
  | ((k, f), c) :: rest, key, fname, content =>
    if k = key ∧ f = fname then ((k, f), content) :: rest
    else ((k, f), c) :: write_file rest key fname content

/-- The file names of the entries of a key's directory. -/
def dir_entries : List ((Str × Str) × Str) → Str → List Str
  | [], _ => []
  | ((k, f), _) :: rest, key =>
    if k = key then f :: dir_entries rest key else dir_entries rest key

/-- The `.json`-suffix test of `list_files` (`file_manager.cpp:127-128`):
`size() >= 5` and the last five characters equal `".json"`. -/
def ends_with_json (f : Str) : Bool :=
  decide (f.length ≥ JSON_EXTENSION.length
    ∧ f.drop (f.length - JSON_EXTENSION.length) = JSON_EXTENSION)

/-- Insertion into a sorted list of strings, ascending by `lexLt`. -/
def insertStr (a : Str) : List Str → List Str
  | [] => [a]
  | b :: bs => if lexLt b a then b :: insertStr a bs else a :: b :: bs

/-- `std::sort` on a vector of strings (ascending by `operator<`). -/
def sortStrings : List Str → List Str
  | [] => []
  | a :: rest => insertStr a (sortStrings rest)

/-! ## JSON serialization (`nlohmann::json::dump()`, compact form) -/

/-- Decimal digit character for `n < 10`. -/
def digitChar (n : Nat) : Char := Char.ofNat (48 + n)

/-- Digit-producing loop for decimal printing, structurally recursive on a
fuel argument (any fuel at least the number itself suffices). -/
def natDigitsAux : Nat → Nat → Str → Str
  | 0, _, acc => acc
  | fuel + 1, n, acc =>
    if n = 0 then acc
    else natDigitsAux fuel (n / 10) (digitChar (n % 10) :: acc)

/-- Decimal representation of a natural number, as `std::to_string`. -/
def natRepr (n : Nat) : Str :=
  if n = 0 then ['0'] else natDigitsAux (n + 1) n []

/-- Decimal representation of an integer, as `nlohmann::json` prints
integer numbers. -/
def intRepr (n : Int) : Str :=
  if n < 0 then '-' :: natRepr n.natAbs else natRepr n.toNat

/-- Lowercase hexadecimal digit for `n < 16`. -/
def hexDigit : Nat → Char
  | 0 => '0' | 1 => '1' | 2 => '2' | 3 => '3' | 4 => '4'
  | 5 => '5' | 6 => '6' | 7 => '7' | 8 => '8' | 9 => '9'
  | 10 => 'a' | 11 => 'b' | 12 => 'c' | 13 => 'd' | 14 => 'e'
  | _ => 'f'

/-- How `nlohmann::json::dump` escapes one string character: `"` and `\`
get a backslash, the common control characters get their short escapes, the
remaining control characters become `\u00XX`, and everything else is kept. -/
def escapeChar (c : Char) : Str :=
  if c = '"' then ['\\', '"']
  else if c = '\\' then ['\\', '\\']
  else if c = Char.ofNat 8 then ['\\', 'b']
  else if c = Char.ofNat 12 then ['\\', 'f']
  else if c = '\n' then ['\\', 'n']
  else if c = Char.ofNat 13 then ['\\', 'r']
  else if c = '\t' then ['\\', 't']
  else if c.val < 32 then
    ['\\', 'u', '0', '0', hexDigit (c.toNat / 16), hexDigit (c.toNat % 16)]
  else [c]

/-- Escape a whole string for dumping. -/
def escapeString : Str → Str
  | [] => []
  | c :: cs => escapeChar c ++ escapeString cs

mutual
/-- `nlohmann::json::dump()` — the compact serialization (no spacing,
object members in sorted key order, which is how the library stores them). -/
def dump : Json → Str
  | .null => chars "null"
  | .bool true => chars "true"
  | .bool false => chars "false"
  | .num n => intRepr n
  | .str s => '"' :: escapeString s ++ ['"']
  | .arr .nil => ['[', ']']
  | .arr (.cons x xs) => '[' :: (dump x ++ dumpArrTail xs) ++ [']']
  | .obj .nil => [lbrace, rbrace]
  | .obj (.cons k v kvs) =>
    lbrace :: ('"' :: escapeString k ++ '"' :: ':' :: dump v ++ dumpObjTail kvs) ++ [rbrace]

/-- The remaining elements of an array, each preceded by a comma. -/
def dumpArrTail : JsonArr → Str
  | .nil => []
  | .cons x xs => ',' :: dump x ++ dumpArrTail xs

/-- The remaining members of an object, each preceded by a comma. -/
def dumpObjTail : JsonObj → Str
  | .nil => []
  | .cons k v kvs => ',' :: '"' :: escapeString k ++ '"' :: ':' :: dump v ++ dumpObjTail kvs
end

/-! ## JSON parsing (`nlohmann::json::parse`, strict mode)

A fuel-indexed recursive-descent parser over the grammar of the modelled
values.  The fuel only serves to make the recursion structural; `parseJson`
supplies enough fuel for any input it can succeed on. -/

/-- JSON insignificant whitespace. -/
def isJsonWs (c : Char) : Bool :=
  c = ' ' || c = '\t' || c = '\n' || c = Char.ofNat 13

/-- Skip insignificant whitespace. -/
def skipWs (s : Str) : Str := s.dropWhile isJsonWs

/-- ASCII decimal digit test. -/
def isDigitChar (c : Char) : Bool := 48 ≤ c.val ∧ c.val ≤ 57

/-- Value of a hexadecimal digit character. -/
def hexVal (c : Char) : Option Nat :=
  if 48 ≤ c.val ∧ c.val ≤ 57 then some (c.toNat - 48)
  else if 97 ≤ c.val ∧ c.val ≤ 102 then some (c.toNat - 87)
  else if 65 ≤ c.val ∧ c.val ≤ 70 then some (c.toNat - 55)
  else none

/-- Combined value of four hexadecimal digit characters. -/
def hex4val (h1 h2 h3 h4 : Char) : Option Nat :=
  match hexVal h1, hexVal h2, hexVal h3, hexVal h4 with
  | some a, some b, some g, some d => some (((a * 16 + b) * 16 + g) * 16 + d)
  | _, _, _, _ => none

/-- Numeric value of a digit string (most significant first). -/
def digitsVal (s : Str) : Nat :=
  s.foldl (fun a c => a * 10 + (c.toNat - 48)) 0

/-- Parse an unsigned integer literal: a nonempty digit run without a
redundant leading zero, not followed by `.`, `e` or `E` (the parser is
strict about leading zeros; fractional and exponent forms are floating
point, which the embedding does not model). -/
def parseNat (s : Str) : Option (Nat × Str) :=
  let digits := s.takeWhile isDigitChar
  if digits = [] then none
  else if digits.head? = some '0' ∧ digits.length > 1 then none
  else
    match s.dropWhile isDigitChar with
    | [] => some (digitsVal digits, [])
    | c :: t =>
      if c = '.' ∨ c = 'e' ∨ c = 'E' then none
      else some (digitsVal digits, c :: t)

/-- Parse a number literal (optional leading minus). -/
def parseNumber (s : Str) : Option (Json × Str) :=
  match s with
  | [] => none
  | c :: rest =>
    if c = '-' then
      match parseNat rest with
      | some (n, r) => some (.num (-(n : Int)), r)
      | none => none
    else
      match parseNat (c :: rest) with
      | some (n, r) => some (.num (n : Int), r)
      | none => none

/-- Parse the body of a string literal after the opening quote, undoing the
escapes, up to and including the closing quote.  Surrogate pairs in `\u`
escapes are combined; unpaired surrogates and raw control characters are
rejected (strict parsing).  The fuel argument only makes the recursion
structural; every step consumes at least one input character, so an
initial fuel of the input length suffices. -/
def parseStringBody : Nat → Str → Option (Str × Str)
  | 0, _ => none
  | fuel + 1, s =>
    match s with
    | [] => none
    | c :: rest =>
      if c = '"' then some ([], rest)
      else if c = '\\' then
        match rest with
        | [] => none
        | e :: r2 =>
          if e = '"' then
            match parseStringBody fuel r2 with
            | some (s, r) => some ('"' :: s, r)
            | none => none
          else if e = '\\' then
            match parseStringBody fuel r2 with
            | some (s, r) => some ('\\' :: s, r)
            | none => none
          else if e = '/' then
            match parseStringBody fuel r2 with
            | some (s, r) => some ('/' :: s, r)
            | none => none
          else if e = 'b' then
            match parseStringBody fuel r2 with
            | some (s, r) => some (Char.ofNat 8 :: s, r)
            | none => none
          else if e = 'f' then
            match parseStringBody fuel r2 with
            | some (s, r) => some (Char.ofNat 12 :: s, r)
            | none => none
          else if e = 'n' then
            match parseStringBody fuel r2 with
            | some (s, r) => some ('\n' :: s, r)
            | none => none
          else if e = 'r' then
            match parseStringBody fuel r2 with
            | some (s, r) => some (Char.ofNat 13 :: s, r)
            | none => none
          else if e = 't' then
            match parseStringBody fuel r2 with
            | some (s, r) => some ('\t' :: s, r)
            | none => none
          else if e = 'u' then
            match r2 with
            | h1 :: h2 :: h3 :: h4 :: r6 =>
              match hex4val h1 h2 h3 h4 with
              | some n =>
                if 55296 ≤ n ∧ n ≤ 56319 then
                  match r6 with
                  | '\\' :: 'u' :: j1 :: j2 :: j3 :: j4 :: r12 =>
                    match hex4val j1 j2 j3 j4 with
                    | some m =>
                      if 56320 ≤ m ∧ m ≤ 57343 then
                        match parseStringBody fuel r12 with
                        | some (s, r) =>
                          some (Char.ofNat (65536 + (n - 55296) * 1024 + (m - 56320)) :: s, r)
                        | none => none
                      else none
                    | none => none
                  | _ => none
                else if 56320 ≤ n ∧ n ≤ 57343 then none
                else
                  match parseStringBody fuel r6 with
                  | some (s, r) => some (Char.ofNat n :: s, r)
                  | none => none
              | none => none
            | _ => none
          else none
      else if c.val < 32 then none
      else
        match parseStringBody fuel rest with
        | some (s, r) => some (c :: s, r)
        | none => none

/-- Parser continuation: a plain value, or the element loop of an array, or
the member loop of an object (with the members accumulated so far). -/
inductive PMode where
  | value
  | arrayItems (acc : JsonArr)
  | objectItems (acc : JsonObj)

/-- The recursive-descent parser.  In `.value` mode it parses one JSON
value; `.arrayItems`/`.objectItems` parse the remaining elements/members
after an opening bracket that was not immediately closed. -/
def parseF : Nat → PMode → Str → Option (Json × Str)
  | 0, _, _ => none
  | fuel + 1, .value, s =>
    match skipWs s with
    | [] => none
    | c :: rest =>
      if c = 'n' then
        match rest with
        | 'u' :: 'l' :: 'l' :: r => some (.null, r)
        | _ => none
      else if c = 't' then
        match rest with
        | 'r' :: 'u' :: 'e' :: r => some (.bool true, r)
        | _ => none
      else if c = 'f' then
        match rest with
        | 'a' :: 'l' :: 's' :: 'e' :: r => some (.bool false, r)
        | _ => none
      else if c = '"' then
        match parseStringBody rest.length rest with
        | some (s', r) => some (.str s', r)
        | none => none
      else if c = '[' then
        match skipWs rest with
        | c' :: r =>
          if c' = ']' then some (.arr .nil, r)
          else parseF fuel (.arrayItems .nil) rest
        | [] => parseF fuel (.arrayItems .nil) rest
      else if c = lbrace then
        match skipWs rest with
        | c' :: r =>
          if c' = rbrace then some (.obj .nil, r)
          else parseF fuel (.objectItems .nil) rest
        | [] => none
      else if c = '-' || isDigitChar c then parseNumber (c :: rest)
      else none
  | fuel + 1, .arrayItems acc, s =>
    match parseF fuel .value s with
    | none => none
    | some (j, r) =>
      match skipWs r with
      | c2 :: r2 =>
        if c2 = ',' then parseF fuel (.arrayItems (snocArr acc j)) r2
        else if c2 = ']' then some (.arr (snocArr acc j), r2)
        else none
      | [] => none
  | fuel + 1, .objectItems acc, s =>
    match skipWs s with
    | c0 :: r =>
      if c0 = '"' then
        match parseStringBody r.length r with
        | some (k, r2) =>
          match skipWs r2 with
          | c3 :: r3 =>
            if c3 = ':' then
              match parseF fuel .value r3 with
              | some (v, r4) =>
                match skipWs r4 with
                | c5 :: r5 =>
                  if c5 = ',' then parseF fuel (.objectItems (insertObj k v acc)) r5
                  else if c5 = rbrace then some (.obj (insertObj k v acc), r5)
                  else none
                | [] => none
              | none => none
            else none
          | [] => none
        | none => none
      else none
    | [] => none

/-- `nlohmann::json::parse` on a whole input: parse one value and require
only whitespace to remain.  The fuel `2 * length + 2` is enough for any
input the parser can accept. -/
def parseJson (s : Str) : Option Json :=
  match parseF (2 * s.length + 2) .value s with
  | some (j, rest) => if skipWs rest = [] then some j else none
  | none => none

/-! ## Store operations (`file_manager.cpp:28-139`)

The operations are deterministic state transformers over `FileSystem`;
I/O never fails in the model (the `IoError` branches of the code are the
handling of failures the filesystem model does not produce). -/

/-- `FileManager::put_json` (`file_manager.cpp:28-68`).  Returns the
result together with the filesystem after the call. -/
def put_json (fs : FileSystem) (key filename : Str) (data : Json) :
    Except FileError Unit × FileSystem :=
  if key = [] then (.error .InvalidFilename, fs)
  else if ¬ key_directory_exists fs key then (.error .KeyDirectoryNotFound, fs)
  else
    let sanitized_filename := sanitize_filename filename
    if sanitized_filename = [] then (.error .InvalidFilename, fs)
    else
      let filename_with_ext := ensure_json_extension sanitized_filename
      let json_string := dump data
      if json_string.length > MAX_JSON_SIZE_BYTES then (.error .FileTooLarge, fs)
      else
        (.ok (), { fs with files := write_file fs.files key filename_with_ext json_string })

/-- `FileManager::get_json` (`file_manager.cpp:70-108`).  Read-only. -/
def get_json (fs : FileSystem) (key filename : Str) : Except FileError Json :=
  if key = [] ∨ filename = [] then .error .InvalidFilename
  else if ¬ key_directory_exists fs key then .error .KeyDirectoryNotFound
  else
    let sanitized_filename := sanitize_filename filename
    let filename_with_ext := ensure_json_extension sanitized_filename
    match read_file fs.files key filename_with_ext with
    | none => .error .FileNotFound
    | some content =>
      if content.length > MAX_JSON_SIZE_BYTES then .error .FileTooLarge
      else
        match parseJson content with
        | some data => .ok data
        | none => .error .InvalidJson

/-- `FileManager::list_files` (`file_manager.cpp:110-139`).  Read-only. -/
def list_files (fs : FileSystem) (key : Str) : Except FileError (List Str) :=
  if key = [] then .error .InvalidFilename
  else if ¬ key_directory_exists fs key then .error .KeyDirectoryNotFound
  else .ok (sortStrings ((dir_entries fs.files key).filter ends_with_json))

/-! ## ApiHandler (`api_handler.cpp`) -/

/-- The `HttpStatus` enumeration (`api_handler.hpp`). -/
inductive HttpStatus where
  | Ok
  | BadRequest
  | NotFound
  | PayloadTooLarge
  | InternalServerError
deriving DecidableEq

/-- The numeric value of a status (`api_handler.hpp:14-20`). -/
def HttpStatus.code : HttpStatus → Nat
  | .Ok => 200
  | .BadRequest => 400
  | .NotFound => 404
  | .PayloadTooLarge => 413
  | .InternalServerError => 500

/-- `ApiResult` (`api_handler.hpp:25-29`). -/
structure ApiResult where
  status : HttpStatus
  message : Str
  data : Option Json
deriving DecidableEq

/-- Member lookup in an object (`nlohmann::json::operator[]` on the
parsed request; `contains` is the lookup succeeding). -/
def objFind : JsonObj → Str → Option Json
  | .nil, _ => none
  | .cons k v tl, key => if k = key then some v else objFind tl key

/-- `request.contains(k) && request[k]` for a parsed request body. -/
def jsonGet (j : Json) (k : Str) : Option Json :=
  match j with
  | .obj kvs => objFind kvs k
  | _ => none

/-- `ApiHandler::file_error_to_api_result` (`api_handler.cpp:102-120`). -/
def file_error_to_api_result : FileError → ApiResult
  | .KeyDirectoryNotFound => ⟨.NotFound, chars "Key directory not found", none⟩
  | .FileNotFound => ⟨.NotFound, chars "File not found", none⟩
  | .InvalidJson => ⟨.BadRequest, chars "Invalid JSON data", none⟩
  | .FileTooLarge => ⟨.PayloadTooLarge, chars "File exceeds maximum size (1MB)", none⟩
  | .InvalidFilename => ⟨.BadRequest, chars "Invalid filename", none⟩
  | .IoError => ⟨.InternalServerError, chars "File I/O error", none⟩
  | .JsonEncodingError => ⟨.InternalServerError, chars "JSON encoding error", none⟩

/-- `ApiHandler::handle_put` (`api_handler.cpp:11-43`), together with the
filesystem state after the call. -/
def handle_put (fs : FileSystem) (request_body : Str) : ApiResult × FileSystem :=
  match parseJson request_body with
  | none => (⟨.BadRequest, chars "Invalid JSON", none⟩, fs)
  | some request =>
    match jsonGet request (chars "key") with
    | some (.str key) =>
      match jsonGet request (chars "filename") with
      | some (.str filename) =>
        match jsonGet request (chars "data") with
        | some data =>
          match put_json fs key filename data with
          | (.ok _, fs') => (⟨.Ok, chars "success", none⟩, fs')
          | (.error e, fs') => (file_error_to_api_result e, fs')
        | none => (⟨.BadRequest, chars "Missing 'data' field", none⟩, fs)
      | _ => (⟨.BadRequest, chars "Missing or invalid 'filename' field", none⟩, fs)
    | _ => (⟨.BadRequest, chars "Missing or invalid 'key' field", none⟩, fs)

/-- `ApiHandler::handle_get` (`api_handler.cpp:45-74`). -/
def handle_get (fs : FileSystem) (request_body : Str) : ApiResult :=
  match parseJson request_body with
  | none => ⟨.BadRequest, chars "Invalid JSON", none⟩
  | some request =>
    match jsonGet request (chars "key") with
    | some (.str key) =>
      match jsonGet request (chars "filename") with
      | some (.str filename) =>
        match get_json fs key filename with
        | .ok data => ⟨.Ok, chars "success", some (.obj (.cons (chars "data") data .nil))⟩
        | .error e => file_error_to_api_result e
      | _ => ⟨.BadRequest, chars "Missing or invalid 'filename' field", none⟩
    | _ => ⟨.BadRequest, chars "Missing or invalid 'key' field", none⟩

/-- Build the `{"files": [...]}` payload of `handle_list`. -/
def filesPayload : List Str → JsonArr
  | [] => .nil
  | f :: rest => .cons (.str f) (filesPayload rest)

/-- `ApiHandler::handle_list` (`api_handler.cpp:76-100`). -/
def handle_list (fs : FileSystem) (request_body : Str) : ApiResult :=
  match parseJson request_body with
  | none => ⟨.BadRequest, chars "Invalid JSON", none⟩
  | some request =>
    match jsonGet request (chars "key") with
    | some (.str key) =>
      match list_files fs key with
      | .ok files =>
        ⟨.Ok, chars "success", some (.obj (.cons (chars "files") (.arr (filesPayload files)) .nil))⟩
      | .error e => file_error_to_api_result e
    | _ => ⟨.BadRequest, chars "Missing or invalid 'key' field", none⟩

/-! ## Ingestion pipeline (`data_server.cpp:68-150`)

The three `onData` handlers for `/api/put`, `/api/get` and `/api/list` are
textually identical up to the `ApiHandler` method they invoke, so they are
modelled once, parametrized by the handler (`handle`).  The transport
delivers the chunks of one request in order, flagging the last one. -/

/-- `MAX_REQUEST_SIZE` (`data_server.hpp:11`, 1 MiB). -/
def MAX_REQUEST_SIZE : Nat := 1024 * 1024

/-- A response written to the transport: status code and body. -/
structure Response where
  status : Nat
  body : Str
deriving DecidableEq

/-- The `413` response written when the accumulated body exceeds the cap
(`data_server.cpp:75-82`): `{"error": "Request body too large"}`. -/
def payload_too_large_response : Response :=
  ⟨413, dump (.obj (.cons (chars "error") (.str (chars "Request body too large")) .nil))⟩

/-- The observable per-request state of one `onData` subscription: the
accumulation buffer, every response written so far, and every body handed
to the `ApiHandler`. -/
structure RequestState where
  body_buffer : Str
  responses : List Response
  handler_calls : List Str
deriving DecidableEq

/-- The state before any chunk arrives (`data_server.cpp:70`). -/
def initial_request_state : RequestState := ⟨[], [], []⟩

/-- One invocation of the `onData` lambda (`data_server.cpp:72-89`): append
the chunk, write `413` and return if over the cap, otherwise invoke the
handler on the full buffer if this was the last chunk. -/
def on_data (handle : Str → Response) (st : RequestState) (chunk : Str)
    (is_last : Bool) : RequestState :=
  let buf := st.body_buffer ++ chunk
  if buf.length > MAX_REQUEST_SIZE then
    { body_buffer := buf
      responses := st.responses ++ [payload_too_large_response]
      handler_calls := st.handler_calls }
  else if is_last then
    { body_buffer := buf
      responses := st.responses ++ [handle buf]
      handler_calls := st.handler_calls ++ [buf] }
  else
    { st with body_buffer := buf }

/-- Deliver a request's chunks in order; the transport flags the final
chunk as `is_last`. -/
def run_request (handle : Str → Response) (st : RequestState) :
    List Str → RequestState
  | [] => st
  | [c] => on_data handle st c true
  | c :: c' :: rest => run_request handle (on_data handle st c false) (c' :: rest)

/-- Total size of a chunk sequence. -/
def totalLen (chunks : List Str) : Nat := (chunks.map List.length).sum

/-- Number of `onData` invocations that find the accumulated size above the
cap, given the number of bytes already buffered. -/
def overflow_events : Nat → List Str → Nat
  | _, [] => 0
  | n, c :: rest =>
    let n' := n + c.length
    (if n' > MAX_REQUEST_SIZE then 1 else 0) + overflow_events n' rest

/-! ## The specification's reference sanitization transform (§4.1)

`spec_sanitize` is deliberately written from the specification's words, not
from the code, to compare the two (claim C2): iterate character by
character; drop `/`, `\` and NUL; a `.` immediately following another `.`
in the output-so-far is dropped, otherwise `.` becomes `_`; other
characters are kept only if alphanumeric, `_` or `-`; finally trailing `_`
and `-` are stripped. -/

/-- One character step of the specification's transform, acting on the
output built so far. -/
def spec_sanitize_step (out : Str) (c : Char) : Str :=
  if c = '/' || c = '\\' || c = nulChar then out
  else if c = '.' then (if out.getLast? = some '.' then out else out ++ ['_'])
  else if c.isAlphanum || c = '_' || c = '-' then out ++ [c]
  else out

/-- The specification's reference sanitization transform. -/
def spec_sanitize (raw : Str) : Str :=
  ((raw.foldl spec_sanitize_step []).reverse.dropWhile (fun c => c = '_' || c = '-')).reverse

/-! ## Fuel measures for the parser round-trip proof -/

mutual
/-- Fuel sufficient for `parseF` to parse the dump of a value. -/
def fuelVal : Json → Nat
  | .null => 1
  | .bool _ => 1
  | .num _ => 1
  | .str _ => 1
  | .arr .nil => 1
  | .arr (.cons x xs) => 1 + fuelArrLoop x xs
  | .obj .nil => 1
  | .obj (.cons _ v kvs) => 1 + fuelObjLoop v kvs
termination_by j => sizeOf j

/-- Fuel sufficient for the array-element loop: current element and the
remaining elements. -/
def fuelArrLoop : Json → JsonArr → Nat
  | x, .nil => 1 + fuelVal x
  | x, .cons y ys => 1 + fuelVal x + fuelArrLoop y ys
termination_by x xs => sizeOf x + sizeOf xs

/-- Fuel sufficient for the object-member loop: current member's value and
the remaining members. -/
def fuelObjLoop : Json → JsonObj → Nat
  | v, .nil => 1 + fuelVal v
  | v, .cons _ v' kvs => 1 + fuelVal v + fuelObjLoop v' kvs
termination_by v kvs => sizeOf v + sizeOf kvs
end

/-- All keys of a member list are strictly below `k` (the loop invariant of
object parsing: already-inserted keys precede the next one). -/
def allKeysBelow (k : Str) : JsonObj → Prop
  | .nil => True
  | .cons k' _ tl => lexLt k' k = true ∧ allKeysBelow k tl

/-- The inputs at which a dumped value may legally stop: end of input or a
closing/separating token (what follows an element inside an array or an
object, or nothing at top level).  Number parsing needs this to know the
digit run ended. -/
def stopper (s : Str) : Prop :=
  match s with
  | [] => True
  | c :: _ => c = ',' ∨ c = ']' ∨ c = rbrace

/-- Round-trip induction motive for a value: with enough fuel and a legal
stopper after it, the parser consumes exactly the dumped text. -/
def PVal (j : Json) : Prop :=
  canonical j = true → ∀ fuel rest, fuelVal j ≤ fuel → stopper rest →
    parseF fuel .value (dump j ++ rest) = some (j, rest)

/-- Round-trip induction motive for the array-element loop (guarded on a
`cons` shape so the `nil` case is vacuous). -/
def PArrLoop (xs : JsonArr) : Prop :=
  ∀ hd tl, xs = .cons hd tl → canonicalArr xs = true →
    ∀ fuel (acc : JsonArr) rest, fuelArrLoop hd tl ≤ fuel → stopper rest →
      parseF fuel (.arrayItems acc) (dump hd ++ (dumpArrTail tl ++ ']' :: rest))
        = some (.arr (appendArr acc xs), rest)

/-- Round-trip induction motive for the object-member loop: the
already-accumulated members all have keys below the next key. -/
def PObjLoop (kvs : JsonObj) : Prop :=
  ∀ k v tl, kvs = .cons k v tl → canonicalObj kvs = true →
    ∀ fuel (acc : JsonObj) rest, fuelObjLoop v tl ≤ fuel → stopper rest →
      allKeysBelow k acc →
      parseF fuel (.objectItems acc)
          ('"' :: (escapeString k ++ '"' :: ':' :: (dump v ++ (dumpObjTail tl ++ rbrace :: rest))))
        = some (.obj (appendObj acc kvs), rest)

/-! # Proofs -/

/-! ## Sanitization (claims C1, C2) -/

lemma strip_trailing_eq_dropWhile (l : Str) :
    strip_trailing l = l.dropWhile (fun c => c = '_' || c = '-') := by
  induction l with
  | nil => rfl
  | cons c rest ih =>
    cases h : (c = '_' || c = '-') <;>
      simp [strip_trailing, List.dropWhile_cons, h, ih]

lemma mem_of_mem_strip_trailing {c : Char} {l : Str} (h : c ∈ strip_trailing l) :
    c ∈ l := by
  rw [strip_trailing_eq_dropWhile] at h
  exact (List.dropWhile_sublist _).mem h

lemma not_mem_sanitize_loop (c : Char) (hv : is_valid_json_character c = false)
    (hu : c ≠ '_') :
    ∀ (rem acc : Str), c ∉ acc → c ∉ sanitize_loop acc rem := by
  intro rem
  induction rem with
  | nil =>
    intro acc h
    simpa [sanitize_loop] using h
  | cons d rest ih =>
    intro acc hacc
    simp only [sanitize_loop]
    split_ifs with h1 h2 h3 h4
    · exact ih acc hacc
    · exact ih acc hacc
    · refine ih _ ?_
      intro hmem
      rcases List.mem_cons.mp hmem with h | h
      · exact hu h
      · exact hacc h
    · refine ih _ ?_
      intro hmem
      rcases List.mem_cons.mp hmem with h | h
      · rw [h] at hv
        rw [hv] at h4
        exact Bool.false_ne_true h4
      · exact hacc h
    · exact ih acc hacc

lemma not_mem_sanitize_filename (c : Char) (hv : is_valid_json_character c = false)
    (hu : c ≠ '_') (raw : Str) : c ∉ sanitize_filename raw := by
  intro h
  rw [sanitize_filename, List.mem_reverse] at h
  exact not_mem_sanitize_loop c hv hu raw [] (List.not_mem_nil c)
    (mem_of_mem_strip_trailing h)

lemma ensure_ext_of_no_dot (s : Str) (h : '.' ∉ s) :
    ensure_json_extension s = s ++ JSON_EXTENSION := by
  rw [ensure_json_extension, if_neg]
  rintro ⟨_, hdrop⟩
  have hmem : '.' ∈ s.drop (s.length - JSON_EXTENSION.length) := by
    rw [hdrop]
    decide
  exact h (List.mem_of_mem_drop hmem)

/-- Claim C1: for every raw filename, the sanitized filename contains no
`/`, `\`, NUL or `.`; consequently `ensure_json_extension` always appends a
fresh `.json` suffix, and the path built by `get_file_path` is the key
directory plus a single separator plus a final component that contains no
separator and is neither `.` nor `..` — a direct child of the key
directory that cannot resolve outside it. -/
theorem sanitized_path_is_direct_child (raw key data_directory : Str) :
    ('/' ∉ sanitize_filename raw ∧ '\\' ∉ sanitize_filename raw ∧
      nulChar ∉ sanitize_filename raw ∧ '.' ∉ sanitize_filename raw) ∧
    ensure_json_extension (sanitize_filename raw)
      = sanitize_filename raw ++ JSON_EXTENSION ∧
    get_file_path data_directory key (ensure_json_extension (sanitize_filename raw))
      = get_key_directory data_directory key
          ++ '/' :: ensure_json_extension (sanitize_filename raw) ∧
    '/' ∉ ensure_json_extension (sanitize_filename raw) ∧
    '\\' ∉ ensure_json_extension (sanitize_filename raw) ∧
    nulChar ∉ ensure_json_extension (sanitize_filename raw) ∧
    ensure_json_extension (sanitize_filename raw) ≠ chars "." ∧
    ensure_json_extension (sanitize_filename raw) ≠ chars ".." := by
  have hs : '/' ∉ sanitize_filename raw :=
    not_mem_sanitize_filename _ (by decide) (by decide) raw
  have hb : '\\' ∉ sanitize_filename raw :=
    not_mem_sanitize_filename _ (by decide) (by decide) raw
  have hn : nulChar ∉ sanitize_filename raw :=
    not_mem_sanitize_filename _ (by decide) (by decide) raw
  have hd : '.' ∉ sanitize_filename raw :=
    not_mem_sanitize_filename _ (by decide) (by decide) raw
  have hext := ensure_ext_of_no_dot _ hd
  have hlen : (ensure_json_extension (sanitize_filename raw)).length
      = (sanitize_filename raw).length + 5 := by
    rw [hext, List.length_append]
    rfl
  refine ⟨⟨hs, hb, hn, hd⟩, hext, rfl, ?_, ?_, ?_, ?_, ?_⟩
  · rw [hext]
    intro hmem
    rcases List.mem_append.mp hmem with h | h
    · exact hs h
    · revert h
      decide
  · rw [hext]
    intro hmem
    rcases List.mem_append.mp hmem with h | h
    · exact hb h
    · revert h
      decide
  · rw [hext]
    intro hmem
    rcases List.mem_append.mp hmem with h | h
    · exact hn h
    · revert h
      decide
  · intro heq
    have := congrArg List.length heq
    rw [hlen] at this
    simp [chars] at this
  · intro heq
    have := congrArg List.length heq
    rw [hlen] at this
    simp [chars] at this

lemma revBackIsDot_iff (acc : Str) : revBackIsDot acc = true ↔ acc.head? = some '.' := by
  cases acc <;> simp [revBackIsDot]

lemma sanitize_loop_eq_foldl : ∀ (rem acc : Str),
    sanitize_loop acc rem = (List.foldl spec_sanitize_step acc.reverse rem).reverse := by
  intro rem
  induction rem with
  | nil =>
    intro acc
    simp [sanitize_loop]
  | cons c rest ih =>
    intro acc
    simp only [sanitize_loop, List.foldl_cons]
    split_ifs with h1 h2 h3 h4
    · rw [spec_sanitize_step, if_pos h1]
      exact ih acc
    · rw [Bool.and_eq_true, decide_eq_true_iff] at h2
      obtain ⟨hc, hb⟩ := h2
      rw [spec_sanitize_step, if_neg (by simpa using h1), if_pos (by simpa using hc),
        if_pos (by rw [List.getLast?_reverse]; exact (revBackIsDot_iff acc).mp hb)]
      exact ih acc
    · have hnb : revBackIsDot acc = false := by
        rcases Bool.eq_false_or_eq_true (revBackIsDot acc) with h | h
        · exact absurd (by rw [h3, h]; decide) h2
        · exact h
      rw [spec_sanitize_step, if_neg (by simpa using h1), if_pos (by simpa using h3),
        if_neg (by
          rw [List.getLast?_reverse]
          intro hh
          rw [(revBackIsDot_iff acc).mpr hh] at hnb
          exact Bool.noConfusion hnb)]
      rw [← List.reverse_cons]
      exact ih ('_' :: acc)
    · have h4' : (c.isAlphanum || decide (c = '_') || decide (c = '-')) = true := h4
      rw [spec_sanitize_step, if_neg (by simpa using h1), if_neg (by simpa using h3),
        if_pos h4']
      rw [← List.reverse_cons]
      exact ih (c :: acc)
    · have h4' : ¬ (c.isAlphanum || decide (c = '_') || decide (c = '-')) = true := h4
      rw [spec_sanitize_step, if_neg (by simpa using h1), if_neg (by simpa using h3),
        if_neg h4']
      exact ih acc

lemma sanitize_loop_all_underscore :
    ∀ (rem acc : Str), (∀ c ∈ rem, is_valid_json_character c = false) →
      (∀ c ∈ acc, c = '_') → ∀ c ∈ sanitize_loop acc rem, c = '_' := by
  intro rem
  induction rem with
  | nil =>
    intro acc _ hacc
    simpa [sanitize_loop] using hacc
  | cons d rest ih =>
    intro acc hrem hacc
    have hrest : ∀ c ∈ rest, is_valid_json_character c = false := by
      intro c hc
      exact hrem c (List.mem_cons_of_mem d hc)
    have hd : is_valid_json_character d = false := hrem d (List.mem_cons_self d rest)
    simp only [sanitize_loop]
    split_ifs with h1 h2 h3 h4
    · exact ih acc hrest hacc
    · exact ih acc hrest hacc
    · refine ih _ hrest ?_
      intro c hc
      rcases List.mem_cons.mp hc with h | h
      · exact h
      · exact hacc c h
    · rw [hd] at h4
      exact absurd h4 Bool.false_ne_true
    · exact ih acc hrest hacc

lemma strip_trailing_all_underscore :
    ∀ (l : Str), (∀ c ∈ l, c = '_') → strip_trailing l = [] := by
  intro l
  induction l with
  | nil => intro _; rfl
  | cons c rest ih =>
    intro h
    have hc : c = '_' := h c (List.mem_cons_self c rest)
    rw [strip_trailing, if_pos (by rw [hc]; decide)]
    exact ih (fun d hd => h d (List.mem_cons_of_mem c hd))

/-- Claim C2: the code's `sanitize_filename` equals the specification's
reference transform on every input (the transform is a total function by
construction), and any input made only of characters outside the whitelist
sanitizes to the empty string. -/
theorem sanitize_filename_matches_spec :
    (∀ raw, sanitize_filename raw = spec_sanitize raw) ∧
    ∀ raw, (∀ c ∈ raw, is_valid_json_character c = false) →
      sanitize_filename raw = [] := by
  constructor
  · intro raw
    rw [sanitize_filename, strip_trailing_eq_dropWhile, sanitize_loop_eq_foldl raw []]
    rfl
  · intro raw h
    rw [sanitize_filename,
      strip_trailing_all_underscore _ (sanitize_loop_all_underscore raw [] h (by simp))]
    rfl

/-- Witness for C2 at the specification's own example: the all-punctuation
filename `"!!!"` sanitizes to the empty string. -/
theorem sanitize_filename_matches_spec_witness :
    sanitize_filename (chars "!!!") = [] :=
  sanitize_filename_matches_spec.2 (chars "!!!") (by decide)

/-! ## Listing (claim C5) -/

lemma lexLt_asymm : ∀ (a b : Str), lexLt a b = true → lexLt b a = false := by
  intro a
  induction a with
  | nil =>
    intro b h
    cases b with
    | nil => simp [lexLt] at h
    | cons d ds => simp [lexLt]
  | cons c cs ih =>
    intro b h
    cases b with
    | nil => simp [lexLt] at h
    | cons d ds =>
      simp only [lexLt] at h ⊢
      by_cases h1 : c.toNat < d.toNat
      · rw [if_neg (by omega), if_pos h1]
      · by_cases h2 : d.toNat < c.toNat
        · rw [if_neg h1, if_pos h2] at h
          exact Bool.noConfusion h
        · rw [if_neg h1, if_neg h2] at h
          rw [if_neg h2, if_neg h1]
          exact ih ds h

lemma mem_insertStr (x a : Str) : ∀ (l : List Str),
    (x ∈ insertStr a l ↔ x = a ∨ x ∈ l) := by
  intro l
  induction l with
  | nil => simp [insertStr]
  | cons b bs ih =>
    rw [insertStr]
    split_ifs with hb <;> simp only [List.mem_cons, ih]
    all_goals tauto

lemma mem_sortStrings (x : Str) : ∀ (l : List Str), x ∈ sortStrings l ↔ x ∈ l := by
  intro l
  induction l with
  | nil => simp [sortStrings]
  | cons a rest ih =>
    rw [sortStrings, mem_insertStr]
    simp [ih]

lemma chain'_insertStr (a : Str) : ∀ (l : List Str),
    List.Chain' (fun x y => lexLt y x = false) l →
    List.Chain' (fun x y => lexLt y x = false) (insertStr a l) := by
  intro l
  induction l with
  | nil =>
    intro _
    simp [insertStr]
  | cons b bs ih =>
    intro h
    rw [insertStr]
    split_ifs with hb
    · refine List.chain'_cons'.mpr ⟨?_, ih h.tail⟩
      intro y hy
      cases bs with
      | nil =>
        simp only [insertStr, List.head?_cons, Option.mem_def, Option.some.injEq] at hy
        rw [← hy]
        exact lexLt_asymm b a hb
      | cons c cs =>
        rw [insertStr] at hy
        rcases List.chain'_cons.mp h with ⟨hbc, _⟩
        split_ifs at hy with hc
        · simp only [List.head?_cons, Option.mem_def, Option.some.injEq] at hy
          rw [← hy]
          exact hbc
        · simp only [List.head?_cons, Option.mem_def, Option.some.injEq] at hy
          rw [← hy]
          exact lexLt_asymm b a hb
    · exact List.chain'_cons.mpr ⟨Bool.not_eq_true _ ▸ hb, h⟩

lemma chain'_sortStrings : ∀ (l : List Str),
    List.Chain' (fun x y => lexLt y x = false) (sortStrings l) := by
  intro l
  induction l with
  | nil => simp [sortStrings]
  | cons a rest ih => exact chain'_insertStr a _ ih

/-- Claim C5: for a non-empty key whose directory exists, `list_files`
returns exactly the directory's file names ending in `.json`, in ascending
lexicographic order (consecutive results never descend), and after putting
filenames `"b"`, `"a"`, `"c"` into a fresh key directory the listing is
`["a.json", "b.json", "c.json"]`.  (`list_files` is a read-only function
of the filesystem state, so repeated calls without intervening writes are
identical by construction.) -/
theorem list_files_sorted_and_complete (fs : FileSystem) (key : Str) (l : List Str)
    (h : list_files fs key = .ok l) :
    List.Chain' (fun a b => lexLt b a = false) l ∧
    (∀ f, f ∈ l ↔ f ∈ dir_entries fs.files key ∧ ends_with_json f = true) ∧
    list_files
        (put_json (put_json (put_json ⟨[chars "k"], []⟩ (chars "k") (chars "b") .null).2
            (chars "k") (chars "a") .null).2
          (chars "k") (chars "c") .null).2
        (chars "k")
      = .ok [chars "a.json", chars "b.json", chars "c.json"] := by
  have hl : l = sortStrings ((dir_entries fs.files key).filter ends_with_json) := by
    rw [list_files] at h
    split_ifs at h
    any_goals cases h
    rfl
  refine ⟨?_, ?_, by rfl⟩
  · rw [hl]
    exact chain'_sortStrings _
  · intro f
    rw [hl, mem_sortStrings, List.mem_filter]

/-- Witness for C5: the concrete three-`put` scenario of the claim,
obtained by applying the theorem to a state in which `list_files`
succeeds. -/
theorem list_files_sorted_and_complete_witness :
    list_files
        (put_json (put_json (put_json ⟨[chars "k"], []⟩ (chars "k") (chars "b") .null).2
            (chars "k") (chars "a") .null).2
          (chars "k") (chars "c") .null).2
        (chars "k")
      = .ok [chars "a.json", chars "b.json", chars "c.json"] :=
  (list_files_sorted_and_complete ⟨[chars "k"], []⟩ (chars "k") [] (by rfl)).2.2

/-! ## Store error paths (claims C4, C6, C9, C10) -/

/-- Counterexample to C4 as stated: with an existing key directory `"k"`
holding no files, `get_json` on the all-punctuation filename `"!!!"`
(which sanitizes to the empty string) fails with `FileNotFound`, not with
`InvalidFilename` — `get_json` never re-checks emptiness of the sanitized
name, it resolves the bare `.json` name and misses. -/
theorem get_sanitize_empty_not_invalid_filename :
    get_json ⟨[chars "k"], []⟩ (chars "k") (chars "!!!") = .error .FileNotFound ∧
    FileError.FileNotFound ≠ FileError.InvalidFilename :=
  ⟨rfl, by decide⟩

/-- Claim C4 (amended): for a non-empty key with existing directory and a
non-empty filename that sanitizes to the empty string, `put_json` fails
with `InvalidFilename`, while `get_json` — which applies the same
sanitize-and-suffix transform but does not re-check emptiness — resolves
the bare `.json` name and fails with `FileNotFound` when no such file
exists in the key directory. -/
theorem sanitize_empty_put_invalid_get_not_found (fs : FileSystem)
    (key filename : Str) (data : Json)
    (hk : key ≠ []) (hdir : key_directory_exists fs key = true)
    (hf : filename ≠ []) (hs : sanitize_filename filename = [])
    (hnofile : read_file fs.files key JSON_EXTENSION = none) :
    (put_json fs key filename data).1 = .error .InvalidFilename ∧
    get_json fs key filename = .error .FileNotFound := by
  constructor
  · simp only [put_json]
    rw [if_neg hk, if_neg (not_not_intro hdir), if_pos hs]
  · simp only [get_json]
    rw [if_neg (fun h => h.elim hk hf), if_neg (not_not_intro hdir), hs]
    have hee : ensure_json_extension [] = JSON_EXTENSION := rfl
    rw [hee, hnofile]

/-- Witness for C4 (amended) at the state and inputs of the counterexample. -/
theorem sanitize_empty_put_invalid_get_not_found_witness :
    (put_json ⟨[chars "k"], []⟩ (chars "k") (chars "!!!") .null).1
        = .error .InvalidFilename ∧
    get_json ⟨[chars "k"], []⟩ (chars "k") (chars "!!!") = .error .FileNotFound :=
  sanitize_empty_put_invalid_get_not_found ⟨[chars "k"], []⟩ (chars "k")
    (chars "!!!") .null (by decide) (by rfl) (by decide) (by rfl) (by rfl)

/-- Claim C6: `put_json` fails with `FileTooLarge` exactly when the earlier
checks pass and the compact serialization strictly exceeds 1 MiB (so a
document of exactly 1 MiB is accepted), and `get_json` fails with
`FileTooLarge` exactly when the earlier checks pass, the file exists, and
its content strictly exceeds 1 MiB. -/
theorem file_too_large_iff (fs : FileSystem) (key filename : Str) (data : Json) :
    ((put_json fs key filename data).1 = .error .FileTooLarge ↔
      (key ≠ [] ∧ key_directory_exists fs key = true ∧
        sanitize_filename filename ≠ [] ∧
        MAX_JSON_SIZE_BYTES < (dump data).length)) ∧
    (get_json fs key filename = .error .FileTooLarge ↔
      (key ≠ [] ∧ filename ≠ [] ∧ key_directory_exists fs key = true ∧
        ∃ content,
          read_file fs.files key (ensure_json_extension (sanitize_filename filename))
            = some content ∧
          MAX_JSON_SIZE_BYTES < content.length)) := by
  constructor
  · simp only [put_json]
    by_cases h1 : key = []
    · rw [if_pos h1]
      exact iff_of_false (by simp) (fun hc => hc.1 h1)
    · rw [if_neg h1]
      by_cases h2 : key_directory_exists fs key = true
      · rw [if_neg (not_not_intro h2)]
        by_cases h3 : sanitize_filename filename = []
        · rw [if_pos h3]
          exact iff_of_false (by simp) (fun hc => hc.2.2.1 h3)
        · rw [if_neg h3]
          by_cases h4 : MAX_JSON_SIZE_BYTES < (dump data).length
          · rw [if_pos h4]
            exact iff_of_true rfl ⟨h1, h2, h3, h4⟩
          · rw [if_neg h4]
            exact iff_of_false (by simp) (fun hc => h4 hc.2.2.2)
      · rw [if_pos h2]
        exact iff_of_false (by simp) (fun hc => h2 hc.2.1)
  · simp only [get_json]
    by_cases h1 : key = [] ∨ filename = []
    · rw [if_pos h1]
      refine iff_of_false (by simp) ?_
      rintro ⟨hk, hf, _⟩
      rcases h1 with h | h
      · exact hk h
      · exact hf h
    · rw [if_neg h1]
      have hk : key ≠ [] := fun h => h1 (Or.inl h)
      have hf : filename ≠ [] := fun h => h1 (Or.inr h)
      by_cases h2 : key_directory_exists fs key = true
      · rw [if_neg (not_not_intro h2)]
        cases hread : read_file fs.files key
            (ensure_json_extension (sanitize_filename filename)) with
        | none =>
          refine iff_of_false (by simp) ?_
          rintro ⟨_, _, _, c, hc, _⟩
          exact Option.noConfusion hc
        | some content =>
          dsimp only
          by_cases hlen : MAX_JSON_SIZE_BYTES < content.length
          · rw [if_pos hlen]
            exact iff_of_true rfl ⟨hk, hf, h2, content, rfl, hlen⟩
          · rw [if_neg hlen]
            refine iff_of_false ?_ ?_
            · cases hp : parseJson content <;> simp [hp]
            · rintro ⟨_, _, _, c, hc, hclen⟩
              injection hc with hc
              rw [← hc] at hclen
              exact hlen hclen
      · rw [if_pos h2]
        exact iff_of_false (by simp) (fun hc => h2 hc.2.2.1)

/-- Claim C9: for the empty key, all three store operations fail with
`InvalidFilename` (not `KeyDirectoryNotFound`) independent of the
filesystem state and without changing it; through the handler this
surfaces as the `BadRequest` / "Invalid filename" outcome, even though
the empty `"key"` field passed the handler's string-type validation. -/
theorem empty_key_invalid_filename (fs : FileSystem) (filename body : Str)
    (d data : Json)
    (hbody : parseJson body = some (.obj (.cons (chars "data") d
      (.cons (chars "filename") (.str filename)
        (.cons (chars "key") (.str []) .nil))))) :
    (put_json fs [] filename data).1 = .error .InvalidFilename ∧
    (put_json fs [] filename data).2 = fs ∧
    get_json fs [] filename = .error .InvalidFilename ∧
    list_files fs [] = .error .InvalidFilename ∧
    handle_put fs body = (⟨.BadRequest, chars "Invalid filename", none⟩, fs) := by
  refine ⟨rfl, rfl, rfl, rfl, ?_⟩
  rw [handle_put, hbody]
  exact rfl

/-- Witness for C9 on a concrete request body (the dump of the envelope
with empty key). -/
theorem empty_key_invalid_filename_witness :
    (put_json ⟨[], []⟩ [] (chars "f") .null).1 = .error .InvalidFilename ∧
    (put_json ⟨[], []⟩ [] (chars "f") .null).2 = ⟨[], []⟩ ∧
    get_json ⟨[], []⟩ [] (chars "f") = .error .InvalidFilename ∧
    list_files ⟨[], []⟩ [] = .error .InvalidFilename ∧
    handle_put ⟨[], []⟩ (dump (.obj (.cons (chars "data") (.num 1)
        (.cons (chars "filename") (.str (chars "f"))
          (.cons (chars "key") (.str []) .nil)))))
      = (⟨.BadRequest, chars "Invalid filename", none⟩, ⟨[], []⟩) :=
  empty_key_invalid_filename ⟨[], []⟩ (chars "f") _ (.num 1) .null (by rfl)

/-- Claim C10: whenever `put_json` fails with `KeyDirectoryNotFound`,
`InvalidFilename`, `FileTooLarge` or `JsonEncodingError`, the filesystem
is unchanged — every one of those checks happens before the output file
is opened. -/
theorem put_json_error_leaves_state (fs : FileSystem) (key filename : Str)
    (data : Json) (e : FileError)
    (_he : e = .KeyDirectoryNotFound ∨ e = .InvalidFilename ∨
      e = .FileTooLarge ∨ e = .JsonEncodingError)
    (h : (put_json fs key filename data).1 = .error e) :
    (put_json fs key filename data).2 = fs := by
  simp only [put_json] at h ⊢
  split_ifs at h ⊢ <;> rfl

/-- Witness for C10: a missing key directory leaves the (empty) filesystem
untouched. -/
theorem put_json_error_leaves_state_witness :
    (put_json ⟨[], []⟩ (chars "k") (chars "f") .null).2 = ⟨[], []⟩ :=
  put_json_error_leaves_state ⟨[], []⟩ (chars "k") (chars "f") .null
    .KeyDirectoryNotFound (Or.inl rfl) (by rfl)

/-! ## Ingestion pipeline (claims C7, C8) -/

lemma run_request_body_buffer (handle : Str → Response) :
    ∀ (chunks : List Str) (st : RequestState),
      (run_request handle st chunks).body_buffer = st.body_buffer ++ chunks.flatten := by
  intro chunks
  induction chunks with
  | nil =>
    intro st
    simp [run_request]
  | cons c rest ih =>
    intro st
    cases rest with
    | nil =>
      simp only [run_request, on_data]
      split_ifs <;> simp
    | cons c' rest' =>
      rw [run_request, ih]
      simp only [on_data]
      split_ifs <;> simp

lemma overflow_events_nil (n : Nat) : overflow_events n [] = 0 := rfl

lemma flatten_cons_str (l : Str) (L : List Str) : (l :: L).flatten = l ++ L.flatten := rfl

lemma flatten_nil_str : ([] : List Str).flatten = [] := rfl

lemma overflow_events_cons (n : Nat) (c : Str) (rest : List Str) :
    overflow_events n (c :: rest)
      = (if MAX_REQUEST_SIZE < n + c.length then 1 else 0)
        + overflow_events (n + c.length) rest := rfl

lemma run_request_overflow (handle : Str → Response) :
    ∀ (chunks : List Str) (st : RequestState), chunks ≠ [] →
      MAX_REQUEST_SIZE < st.body_buffer.length + totalLen chunks →
      (run_request handle st chunks).handler_calls = st.handler_calls ∧
      (run_request handle st chunks).responses
        = st.responses
          ++ List.replicate (overflow_events st.body_buffer.length chunks)
              payload_too_large_response ∧
      1 ≤ overflow_events st.body_buffer.length chunks := by
  intro chunks
  induction chunks with
  | nil =>
    intro st hne
    exact absurd rfl hne
  | cons c rest ih =>
    intro st _ hsize
    have htot : totalLen (c :: rest) = c.length + totalLen rest := by
      simp [totalLen]
    cases rest with
    | nil =>
      have hsz : MAX_REQUEST_SIZE < st.body_buffer.length + c.length := by
        rw [htot] at hsize
        simp only [totalLen, List.map_nil, List.sum_nil] at hsize
        omega
      have hlen : MAX_REQUEST_SIZE < (st.body_buffer ++ c).length := by
        rw [List.length_append]
        omega
      simp only [run_request, on_data, if_pos hlen]
      rw [overflow_events_cons, if_pos hsz]
      simp only [overflow_events]
      exact ⟨by trivial, by simp, by omega⟩
    | cons c' rest' =>
      rw [run_request]
      rw [htot] at hsize
      by_cases hbuf : MAX_REQUEST_SIZE < st.body_buffer.length + c.length
      · have hlen : MAX_REQUEST_SIZE < (st.body_buffer ++ c).length := by
          rw [List.length_append]
          omega
        have hstep : on_data handle st c false
            = ⟨st.body_buffer ++ c, st.responses ++ [payload_too_large_response],
                st.handler_calls⟩ := by
          simp only [on_data, if_pos hlen]
        rw [hstep]
        obtain ⟨hcalls, hresp, hone⟩ :=
          ih ⟨st.body_buffer ++ c, st.responses ++ [payload_too_large_response],
              st.handler_calls⟩ (by simp)
            (by dsimp only; rw [List.length_append]; omega)
        dsimp only at hcalls hresp hone
        rw [List.length_append] at hresp hone
        refine ⟨hcalls, ?_, ?_⟩
        · rw [overflow_events_cons, if_pos hbuf, hresp, List.append_assoc,
            Nat.add_comm 1, List.replicate_succ, List.singleton_append]
        · rw [overflow_events_cons, if_pos hbuf]
          omega
      · have hlen : ¬ MAX_REQUEST_SIZE < (st.body_buffer ++ c).length := by
          rw [List.length_append]
          omega
        have hstep : on_data handle st c false
            = { st with body_buffer := st.body_buffer ++ c } := by
          simp only [on_data, if_neg hlen]
          rw [if_neg (by decide)]
        rw [hstep]
        obtain ⟨hcalls, hresp, hone⟩ :=
          ih { st with body_buffer := st.body_buffer ++ c } (by simp)
            (by dsimp only; rw [List.length_append]; omega)
        dsimp only at hcalls hresp hone
        rw [List.length_append] at hresp hone
        refine ⟨hcalls, ?_, ?_⟩
        · rw [overflow_events_cons, if_neg hbuf, Nat.zero_add, hresp]
        · rw [overflow_events_cons, if_neg hbuf]
          omega

lemma totalLen_big_single :
    totalLen [List.replicate (MAX_REQUEST_SIZE + 1) 'a'] = MAX_REQUEST_SIZE + 1 := by
  simp only [totalLen, List.map_cons, List.map_nil, List.sum_cons, List.sum_nil,
    List.length_replicate]
  omega

lemma totalLen_big_pair :
    totalLen [List.replicate (MAX_REQUEST_SIZE + 1) 'a', ['b']]
      = MAX_REQUEST_SIZE + 2 := by
  simp only [totalLen, List.map_cons, List.map_nil, List.sum_cons, List.sum_nil,
    List.length_replicate, List.length_cons, List.length_nil]
  omega

/-- Claim C7: for every chunk sequence delivered to the `/api/put` `onData`
handler (the `/api/get` and `/api/list` handlers are the identical code)
whose accumulated size exceeds 1 MiB, the `413`
`{"error": "Request body too large"}` response is written and the
`ApiHandler` is never invoked for the request — parsing is unreachable. -/
theorem overflow_never_reaches_handler (handle : Str → Response)
    (chunks : List Str) (hne : chunks ≠ [])
    (hsize : MAX_REQUEST_SIZE < totalLen chunks) :
    (run_request handle initial_request_state chunks).handler_calls = [] ∧
    payload_too_large_response
      ∈ (run_request handle initial_request_state chunks).responses := by
  obtain ⟨hcalls, hresp, hone⟩ :=
    run_request_overflow handle chunks initial_request_state hne
      (by simpa [initial_request_state] using hsize)
  refine ⟨hcalls, ?_⟩
  rw [hresp]
  refine List.mem_append.mpr (Or.inr ?_)
  exact List.mem_replicate.mpr ⟨by omega, rfl⟩

/-- Witness for C7: a single chunk of exactly 1 MiB + 1 bytes. -/
theorem overflow_never_reaches_handler_witness :
    (run_request (fun _ => ⟨200, []⟩) initial_request_state
        [List.replicate (MAX_REQUEST_SIZE + 1) 'a']).handler_calls = [] ∧
    payload_too_large_response
      ∈ (run_request (fun _ => ⟨200, []⟩) initial_request_state
          [List.replicate (MAX_REQUEST_SIZE + 1) 'a']).responses :=
  overflow_never_reaches_handler _ _ (List.cons_ne_nil _ _)
    (by rw [totalLen_big_single]; omega)

/-- Counterexample to C8 as stated: deliver a chunk of 1 MiB + 1 bytes
(which triggers the `413` write) followed by one more one-byte chunk.  The
code has no `Rejected` latch, so the second chunk is still appended to the
buffer (final buffer length 1 MiB + 2) and the `413` response is written a
second time — subsequent chunks are not ignored and the response is not
written at most once. -/
theorem rejected_state_not_idempotent :
    (run_request (fun _ => ⟨200, []⟩) initial_request_state
        [List.replicate (MAX_REQUEST_SIZE + 1) 'a', ['b']]).responses
      = [payload_too_large_response, payload_too_large_response] ∧
    (run_request (fun _ => ⟨200, []⟩) initial_request_state
        [List.replicate (MAX_REQUEST_SIZE + 1) 'a', ['b']]).body_buffer.length
      = MAX_REQUEST_SIZE + 2 := by
  constructor
  · obtain ⟨_, hresp, _⟩ :=
      run_request_overflow (fun _ => ⟨200, []⟩)
        [List.replicate (MAX_REQUEST_SIZE + 1) 'a', ['b']] initial_request_state
        (List.cons_ne_nil _ _)
        (by rw [show List.length initial_request_state.body_buffer = 0 from rfl,
              totalLen_big_pair]
            omega)
    rw [hresp]
    have hzero : initial_request_state.responses = [] := rfl
    have hlen0 : initial_request_state.body_buffer.length = 0 := rfl
    rw [hzero, hlen0, List.nil_append]
    have hov : overflow_events 0 [List.replicate (MAX_REQUEST_SIZE + 1) 'a', ['b']] = 2 := by
      rw [overflow_events_cons, overflow_events_cons, overflow_events_nil,
        List.length_replicate]
      rw [if_pos (by omega), if_pos (by simp; omega)]
    rw [hov]
    rfl
  · have h0 : initial_request_state.body_buffer.length = 0 := rfl
    rw [run_request_body_buffer, List.length_append, h0, flatten_cons_str,
      flatten_cons_str, flatten_nil_str, List.length_append, List.length_append,
      List.length_replicate]
    simp only [List.length_cons, List.length_nil]
    omega

/-- Claim C8 (amended): once the accumulated size exceeds the cap, the
`ApiHandler` is indeed never invoked, but the code keeps no `Rejected`
latch: every subsequent chunk is still appended to the buffer (the final
buffer is the concatenation of all chunks), and every `onData` invocation
that sees the buffer over the cap writes the `413` response again — the
response is written once per over-cap event, not at most once per
request. -/
theorem overflow_rejection_not_latched (handle : Str → Response)
    (chunks : List Str) (hne : chunks ≠ [])
    (hsize : MAX_REQUEST_SIZE < totalLen chunks) :
    (run_request handle initial_request_state chunks).handler_calls = [] ∧
    (run_request handle initial_request_state chunks).body_buffer = chunks.flatten ∧
    (run_request handle initial_request_state chunks).responses
      = List.replicate (overflow_events 0 chunks) payload_too_large_response ∧
    1 ≤ overflow_events 0 chunks := by
  obtain ⟨hcalls, hresp, hone⟩ :=
    run_request_overflow handle chunks initial_request_state hne
      (by simpa [initial_request_state] using hsize)
  refine ⟨hcalls, ?_, ?_, ?_⟩
  · rw [run_request_body_buffer]
    simp [initial_request_state]
  · rw [hresp]
    simp [initial_request_state]
  · simpa [initial_request_state] using hone

/-- Witness for C8 (amended) on the counterexample's chunk sequence. -/
theorem overflow_rejection_not_latched_witness :
    (run_request (fun _ => ⟨200, []⟩) initial_request_state
        [List.replicate (MAX_REQUEST_SIZE + 1) 'a', ['b']]).handler_calls = [] ∧
    (run_request (fun _ => ⟨200, []⟩) initial_request_state
        [List.replicate (MAX_REQUEST_SIZE + 1) 'a', ['b']]).body_buffer
      = [List.replicate (MAX_REQUEST_SIZE + 1) 'a', ['b']].flatten ∧
    (run_request (fun _ => ⟨200, []⟩) initial_request_state
        [List.replicate (MAX_REQUEST_SIZE + 1) 'a', ['b']]).responses
      = List.replicate
          (overflow_events 0 [List.replicate (MAX_REQUEST_SIZE + 1) 'a', ['b']])
          payload_too_large_response ∧
    1 ≤ overflow_events 0 [List.replicate (MAX_REQUEST_SIZE + 1) 'a', ['b']] :=
  overflow_rejection_not_latched _ _ (List.cons_ne_nil _ _)
    (by rw [totalLen_big_pair]; omega)

/-! ## Parser round-trip (claim C3)

`parseF` inverts `dump` on canonical values.  The development follows the
grammar: string bodies first, then numbers, then the mutual value/array
loop/object loop induction via the recursors of the mutual `Json` types. -/

lemma skipWs_cons_of_not_ws {c : Char} (t : Str) (h : isJsonWs c = false) :
    skipWs (c :: t) = c :: t := by
  rw [skipWs, List.dropWhile_cons, h]
  rfl


/-! ## Parser round-trip (claim C3), part 1: strings

`parseStringBody` inverts `escapeString`.  The `*_step` lemmas record one
definitional unfolding of the fuel-indexed parser each. -/

lemma hexVal_hexDigit (m : Nat) (h : m < 16) : hexVal (hexDigit m) = some m := by
  interval_cases m <;> decide

lemma hex4val_00 (g e : Nat) (hg : g < 16) (he : e < 16) :
    hex4val '0' '0' (hexDigit g) (hexDigit e) = some (g * 16 + e) := by
  rw [hex4val, hexVal_hexDigit g hg, hexVal_hexDigit e he]
  show some (((0 * 16 + 0) * 16 + g) * 16 + e) = some (g * 16 + e)
  congr 1
  omega

lemma parseStringBody_quote_step (f : Nat) (X : Str) :
    parseStringBody (f + 1) ('"' :: X) = some ([], X) := rfl

lemma parseStringBody_plain_step (f : Nat) (X : Str) (c : Char) (h1 : ¬ c = '"')
    (h2 : ¬ c = '\\') (h8 : ¬ c.val < 32) : parseStringBody (f + 1) (c :: X)
    = (match parseStringBody f X with
       | some (s, r) => some (c :: s, r)
       | none => none) := by
  show (if c = '"' then some ([], X)
        else if c = '\\' then
          (match X with
           | [] => none
           | e :: r2 => _)
        else if c.val < 32 then none
        else match parseStringBody f X with
             | some (s, r) => some (c :: s, r)
             | none => none) = _
  rw [if_neg h1, if_neg h2, if_neg h8]

lemma parseStringBody_u_step (f : Nat) (d1 d2 d3 d4 : Char) (X : Str) :
    parseStringBody (f + 1) ('\\' :: 'u' :: d1 :: d2 :: d3 :: d4 :: X)
      = (match hex4val d1 d2 d3 d4 with
         | some n =>
           if 55296 ≤ n ∧ n ≤ 56319 then
             match X with
             | '\\' :: 'u' :: j1 :: j2 :: j3 :: j4 :: r12 =>
               match hex4val j1 j2 j3 j4 with
               | some m =>
                 if 56320 ≤ m ∧ m ≤ 57343 then
                   match parseStringBody f r12 with
                   | some (s, r) =>
                     some (Char.ofNat (65536 + (n - 55296) * 1024 + (m - 56320)) :: s, r)
                   | none => none
                 else none
               | none => none
             | _ => none
           else if 56320 ≤ n ∧ n ≤ 57343 then none
           else
             match parseStringBody f X with
             | some (s, r) => some (Char.ofNat n :: s, r)
             | none => none
         | none => none) := rfl

lemma char_toNat_lt_of_val_lt {c : Char} (h : c.val < 32) : c.toNat < 32 := h

lemma parseStringBody_escape : ∀ (s : Str) (fuel : Nat) (rest : Str),
    s.length < fuel →
    parseStringBody fuel (escapeString s ++ '"' :: rest) = some (s, rest) := by
  intro s
  induction s with
  | nil =>
    intro fuel rest hf
    cases fuel with
    | zero => omega
    | succ f =>
      rw [escapeString, List.nil_append, parseStringBody_quote_step]
  | cons c cs ih =>
    intro fuel rest hf
    cases fuel with
    | zero => omega
    | succ f =>
      have hfs : cs.length < f := by
        simp only [List.length_cons] at hf
        omega
      rw [escapeString, List.append_assoc]
      by_cases h1 : c = '"'
      · rw [h1]
        show parseStringBody (f + 1) ('\\' :: '"' :: (escapeString cs ++ '"' :: rest)) = _
        have hstep : parseStringBody (f + 1) ('\\' :: '"' :: (escapeString cs ++ '"' :: rest))
            = (match parseStringBody f (escapeString cs ++ '"' :: rest) with
               | some (s, r) => some ('"' :: s, r)
               | none => none) := rfl
        rw [hstep, ih f rest hfs]
      · by_cases h2 : c = '\\'
        · rw [h2]
          show parseStringBody (f + 1) ('\\' :: '\\' :: (escapeString cs ++ '"' :: rest)) = _
          have hstep : parseStringBody (f + 1) ('\\' :: '\\' :: (escapeString cs ++ '"' :: rest))
              = (match parseStringBody f (escapeString cs ++ '"' :: rest) with
                 | some (s, r) => some ('\\' :: s, r)
                 | none => none) := rfl
          rw [hstep, ih f rest hfs]
        · by_cases h3 : c = Char.ofNat 8
          · rw [h3]
            show parseStringBody (f + 1) ('\\' :: 'b' :: (escapeString cs ++ '"' :: rest)) = _
            have hstep : parseStringBody (f + 1) ('\\' :: 'b' :: (escapeString cs ++ '"' :: rest))
                = (match parseStringBody f (escapeString cs ++ '"' :: rest) with
                   | some (s, r) => some (Char.ofNat 8 :: s, r)
                   | none => none) := rfl
            rw [hstep, ih f rest hfs]
          · by_cases h4 : c = Char.ofNat 12
            · rw [h4]
              show parseStringBody (f + 1) ('\\' :: 'f' :: (escapeString cs ++ '"' :: rest)) = _
              have hstep : parseStringBody (f + 1) ('\\' :: 'f' :: (escapeString cs ++ '"' :: rest))
                  = (match parseStringBody f (escapeString cs ++ '"' :: rest) with
                     | some (s, r) => some (Char.ofNat 12 :: s, r)
                     | none => none) := rfl
              rw [hstep, ih f rest hfs]
            · by_cases h5 : c = '\n'
              · rw [h5]
                show parseStringBody (f + 1) ('\\' :: 'n' :: (escapeString cs ++ '"' :: rest)) = _
                have hstep : parseStringBody (f + 1) ('\\' :: 'n' :: (escapeString cs ++ '"' :: rest))
                    = (match parseStringBody f (escapeString cs ++ '"' :: rest) with
                       | some (s, r) => some ('\n' :: s, r)
                       | none => none) := rfl
                rw [hstep, ih f rest hfs]
              · by_cases h6 : c = Char.ofNat 13
                · rw [h6]
                  show parseStringBody (f + 1) ('\\' :: 'r' :: (escapeString cs ++ '"' :: rest)) = _
                  have hstep : parseStringBody (f + 1) ('\\' :: 'r' :: (escapeString cs ++ '"' :: rest))
                      = (match parseStringBody f (escapeString cs ++ '"' :: rest) with
                         | some (s, r) => some (Char.ofNat 13 :: s, r)
                         | none => none) := rfl
                  rw [hstep, ih f rest hfs]
                · by_cases h7 : c = '\t'
                  · rw [h7]
                    show parseStringBody (f + 1) ('\\' :: 't' :: (escapeString cs ++ '"' :: rest)) = _
                    have hstep : parseStringBody (f + 1) ('\\' :: 't' :: (escapeString cs ++ '"' :: rest))
                        = (match parseStringBody f (escapeString cs ++ '"' :: rest) with
                           | some (s, r) => some ('\t' :: s, r)
                           | none => none) := rfl
                    rw [hstep, ih f rest hfs]
                  · by_cases h8 : c.val < 32
                    · rw [escapeChar, if_neg h1, if_neg h2, if_neg h3, if_neg h4,
                        if_neg h5, if_neg h6, if_neg h7, if_pos h8]
                      have ht : c.toNat < 32 := char_toNat_lt_of_val_lt h8
                      show parseStringBody (f + 1) ('\\' :: 'u' :: '0' :: '0' ::
                        hexDigit (c.toNat / 16) :: hexDigit (c.toNat % 16) ::
                        (escapeString cs ++ '"' :: rest)) = _
                      rw [parseStringBody_u_step,
                        hex4val_00 _ _ (by omega) (by omega)]
                      have hval : c.toNat / 16 * 16 + c.toNat % 16 = c.toNat := by
                        omega
                      rw [hval]
                      show (if 55296 ≤ c.toNat ∧ c.toNat ≤ 56319 then _
                            else if 56320 ≤ c.toNat ∧ c.toNat ≤ 57343 then none
                            else match parseStringBody f (escapeString cs ++ '"' :: rest) with
                                 | some (s, r) => some (Char.ofNat c.toNat :: s, r)
                                 | none => none) = _
                      rw [if_neg (by omega), if_neg (by omega), ih f rest hfs,
                        Char.ofNat_toNat]
                    · rw [escapeChar, if_neg h1, if_neg h2, if_neg h3, if_neg h4,
                        if_neg h5, if_neg h6, if_neg h7, if_neg h8]
                      show parseStringBody (f + 1)
                        (c :: (escapeString cs ++ '"' :: rest)) = _
                      rw [parseStringBody_plain_step f _ c h1 h2 h8, ih f rest hfs]

/-! ## Parser round-trip (claim C3), part 2: numbers -/

lemma isDigitChar_digitChar (m : Nat) (h : m < 10) :
    isDigitChar (digitChar m) = true := by
  interval_cases m <;> decide

lemma digitChar_toNat (m : Nat) (h : m < 10) : (digitChar m).toNat = 48 + m := by
  interval_cases m <;> decide

lemma digitChar_ne_zero (m : Nat) (h1 : 1 ≤ m) (h2 : m < 10) :
    digitChar m ≠ '0' := by
  interval_cases m <;> decide

lemma natDigitsAux_zero : ∀ (fuel : Nat) (acc : Str), natDigitsAux fuel 0 acc = acc := by
  intro fuel acc
  cases fuel with
  | zero => rfl
  | succ f => rw [natDigitsAux, if_pos rfl]

lemma natDigitsAux_eq_append : ∀ (fuel n : Nat) (acc : Str),
    natDigitsAux fuel n acc = natDigitsAux fuel n [] ++ acc := by
  intro fuel
  induction fuel with
  | zero =>
    intro n acc
    rfl
  | succ f ih =>
    intro n acc
    rw [natDigitsAux, natDigitsAux]
    by_cases h : n = 0
    · rw [if_pos h, if_pos h, List.nil_append]
    · rw [if_neg h, if_neg h, ih (n / 10) (digitChar (n % 10) :: acc),
        ih (n / 10) [digitChar (n % 10)], List.append_assoc, List.singleton_append]

lemma natDigitsAux_digits : ∀ (fuel n : Nat) (acc : Str),
    (∀ c ∈ acc, isDigitChar c = true) →
    ∀ c ∈ natDigitsAux fuel n acc, isDigitChar c = true := by
  intro fuel
  induction fuel with
  | zero =>
    intro n acc hacc
    exact hacc
  | succ f ih =>
    intro n acc hacc
    rw [natDigitsAux]
    split_ifs with h
    · exact hacc
    · refine ih (n / 10) _ ?_
      intro c hc
      rcases List.mem_cons.mp hc with h' | h'
      · rw [h']
        exact isDigitChar_digitChar _ (Nat.mod_lt n (by omega))
      · exact hacc c h'

lemma natDigitsAux_fuel_irrel : ∀ (n f1 f2 : Nat), n ≤ f1 → n ≤ f2 →
    natDigitsAux f1 n [] = natDigitsAux f2 n [] := by
  intro n
  induction n using Nat.strong_induction_on with
  | _ n ih =>
    intro f1 f2 h1 h2
    by_cases hz : n = 0
    · rw [hz, natDigitsAux_zero, natDigitsAux_zero]
    · cases f1 with
      | zero => omega
      | succ a =>
        cases f2 with
        | zero => omega
        | succ b =>
          rw [natDigitsAux, natDigitsAux, if_neg hz, if_neg hz,
            natDigitsAux_eq_append a, natDigitsAux_eq_append b,
            ih (n / 10) (by omega) a b (by omega) (by omega)]

lemma natDigitsAux_split (n : Nat) (h : 1 ≤ n) :
    natDigitsAux (n + 1) n []
      = natDigitsAux (n / 10 + 1) (n / 10) [] ++ [digitChar (n % 10)] := by
  rw [natDigitsAux, if_neg (by omega), natDigitsAux_eq_append,
    natDigitsAux_fuel_irrel (n / 10) n (n / 10 + 1) (by omega) (by omega)]

lemma natDigitsAux_ne_nil : ∀ (n : Nat), 1 ≤ n → natDigitsAux (n + 1) n [] ≠ [] := by
  intro n h
  rw [natDigitsAux_split n h]
  simp

lemma natDigitsAux_head_ne_zero : ∀ (n : Nat), 1 ≤ n →
    ∀ hd tl, natDigitsAux (n + 1) n [] = hd :: tl → hd ≠ '0' := by
  intro n
  induction n using Nat.strong_induction_on with
  | _ n ih =>
    intro h hd tl heq
    rw [natDigitsAux_split n h] at heq
    by_cases h10 : n < 10
    · have hq : n / 10 = 0 := by omega
      rw [hq, natDigitsAux_zero, List.nil_append] at heq
      have : hd = digitChar (n % 10) := by
        injection heq with h1 _
        exact h1.symm
      rw [this]
      exact digitChar_ne_zero _ (by omega) (by omega)
    · have hq : 1 ≤ n / 10 := by omega
      rcases hcons : natDigitsAux (n / 10 + 1) (n / 10) [] with _ | ⟨hd', tl'⟩
      · exact absurd hcons (natDigitsAux_ne_nil _ hq)
      · rw [hcons, List.cons_append] at heq
        injection heq with h1 _
        rw [← h1]
        exact ih (n / 10) (by omega) hq hd' tl' hcons

lemma digitsVal_append_singleton (s : Str) (d : Char) :
    digitsVal (s ++ [d]) = digitsVal s * 10 + (d.toNat - 48) := by
  rw [digitsVal, digitsVal, List.foldl_append]
  rfl

lemma natDigitsAux_val : ∀ (n : Nat), digitsVal (natDigitsAux (n + 1) n []) = n := by
  intro n
  induction n using Nat.strong_induction_on with
  | _ n ih =>
    by_cases hz : n = 0
    · rw [hz, natDigitsAux_zero]
      rfl
    · rw [natDigitsAux_split n (by omega), digitsVal_append_singleton,
        natDigitsAux_fuel_irrel (n / 10) (n / 10 + 1) (n / 10 + 1) (by omega) (by omega),
        ih (n / 10) (by omega), digitChar_toNat (n % 10) (Nat.mod_lt n (by omega))]
      omega

lemma natRepr_digits (n : Nat) : ∀ c ∈ natRepr n, isDigitChar c = true := by
  rw [natRepr]
  split_ifs with h
  · intro c hc
    rcases List.mem_cons.mp hc with h' | h'
    · rw [h']
      decide
    · exact absurd h' (List.not_mem_nil c)
  · exact natDigitsAux_digits (n + 1) n [] (by intro c hc; exact absurd hc (List.not_mem_nil c))

lemma natRepr_ne_nil (n : Nat) : natRepr n ≠ [] := by
  rw [natRepr]
  split_ifs with h
  · simp
  · exact natDigitsAux_ne_nil n (by omega)

lemma natRepr_no_leading_zero (n : Nat) :
    ¬((natRepr n).head? = some '0' ∧ (natRepr n).length > 1) := by
  rw [natRepr]
  split_ifs with h
  · rintro ⟨_, hlen⟩
    simp at hlen
  · rintro ⟨hhd, _⟩
    rcases hcons : natDigitsAux (n + 1) n [] with _ | ⟨hd, tl⟩
    · exact natDigitsAux_ne_nil n (by omega) hcons
    · rw [hcons, List.head?_cons] at hhd
      injection hhd with hhd
      exact natDigitsAux_head_ne_zero n (by omega) hd tl hcons hhd

lemma natRepr_val (n : Nat) : digitsVal (natRepr n) = n := by
  rw [natRepr]
  split_ifs with h
  · rw [h]
    rfl
  · exact natDigitsAux_val n

lemma takeWhile_append_of_all {p : Char → Bool} : ∀ (s rest : Str),
    (∀ c ∈ s, p c = true) → (∀ c, rest.head? = some c → p c = false) →
    (s ++ rest).takeWhile p = s ∧ (s ++ rest).dropWhile p = rest := by
  intro s
  induction s with
  | nil =>
    intro rest _ hr
    cases rest with
    | nil => exact ⟨rfl, rfl⟩
    | cons c t =>
      have := hr c rfl
      rw [List.nil_append, List.takeWhile_cons, List.dropWhile_cons, this]
      exact ⟨rfl, rfl⟩
  | cons a s' ih =>
    intro rest hs hr
    have ha : p a = true := hs a (List.mem_cons_self a s')
    have hs' : ∀ c ∈ s', p c = true := fun c hc => hs c (List.mem_cons_of_mem a hc)
    rw [List.cons_append, List.takeWhile_cons, List.dropWhile_cons, ha]
    obtain ⟨h1, h2⟩ := ih rest hs' hr
    rw [h1, h2]
    exact ⟨rfl, rfl⟩

lemma stopper_head_not_digit {rest : Str} (hstop : stopper rest) :
    ∀ c, rest.head? = some c → isDigitChar c = false := by
  intro c hc
  cases rest with
  | nil => exact Option.noConfusion hc
  | cons d t =>
    injection hc with hc
    rw [← hc]
    rcases hstop with h | h | h <;> rw [h] <;> decide

lemma parseNat_natRepr (n : Nat) (rest : Str) (hstop : stopper rest) :
    parseNat (natRepr n ++ rest) = some (n, rest) := by
  obtain ⟨htake, hdrop⟩ := takeWhile_append_of_all (natRepr n) rest
    (natRepr_digits n) (stopper_head_not_digit hstop)
  simp only [parseNat]
  rw [htake, hdrop, if_neg (natRepr_ne_nil n), if_neg (natRepr_no_leading_zero n)]
  cases rest with
  | nil =>
    rw [natRepr_val]
  | cons c t =>
    have hc : ¬(c = '.' ∨ c = 'e' ∨ c = 'E') := by
      rcases hstop with h | h | h <;> rw [h] <;> decide
    show (if c = '.' ∨ c = 'e' ∨ c = 'E' then none
          else some (digitsVal (natRepr n), c :: t)) = _
    rw [if_neg hc, natRepr_val]

lemma parseNumber_intRepr (n : Int) (rest : Str) (hstop : stopper rest) :
    parseNumber (intRepr n ++ rest) = some (.num n, rest) := by
  rw [intRepr]
  split_ifs with hneg
  · rw [List.cons_append]
    have hstep : parseNumber ('-' :: (natRepr n.natAbs ++ rest))
        = (match parseNat (natRepr n.natAbs ++ rest) with
           | some (nn, r) => some (.num (-(nn : Int)), r)
           | none => none) := rfl
    rw [hstep, parseNat_natRepr n.natAbs rest hstop]
    dsimp only
    have : -((n.natAbs : Nat) : Int) = n := by omega
    rw [this]
  · rcases hcons : natRepr n.toNat with _ | ⟨hd, tl⟩
    · exact absurd hcons (natRepr_ne_nil n.toNat)
    · have hdig : isDigitChar hd = true := by
        refine natRepr_digits n.toNat hd ?_
        rw [hcons]
        exact List.mem_cons_self hd tl
      have hne : ¬ hd = '-' := by
        intro h
        rw [h] at hdig
        exact absurd hdig (by decide)
      have hstep : parseNumber ((hd :: tl) ++ rest)
          = (if hd = '-' then
              match parseNat (tl ++ rest) with
              | some (nn, r) => some (.num (-(nn : Int)), r)
              | none => none
             else
              match parseNat ((hd :: tl) ++ rest) with
              | some (nn, r) => some (.num ((nn : Nat) : Int), r)
              | none => none) := rfl
      rw [hstep, if_neg hne, ← hcons,
        parseNat_natRepr n.toNat rest hstop]
      dsimp only
      have : ((n.toNat : Nat) : Int) = n := by omega
      rw [this]

/-! ## Parser round-trip (claim C3), part 3: the value grammar -/

lemma lexLt_irrefl : ∀ (a : Str), lexLt a a = false := by
  intro a
  induction a with
  | nil => rfl
  | cons c cs ih =>
    rw [lexLt, if_neg (by omega), if_neg (by omega)]
    exact ih

lemma lexLt_trans : ∀ (a b c : Str), lexLt a b = true → lexLt b c = true →
    lexLt a c = true := by
  intro a
  induction a with
  | nil =>
    intro b c hab hbc
    cases b with
    | nil => exact absurd hab (by rw [lexLt]; simp)
    | cons y ys =>
      cases c with
      | nil => exact absurd hbc (by rw [lexLt]; simp)
      | cons z zs => rw [lexLt]
  | cons x xs ih =>
    intro b c hab hbc
    cases b with
    | nil => exact absurd hab (by rw [lexLt]; simp)
    | cons y ys =>
      cases c with
      | nil => exact absurd hbc (by rw [lexLt]; simp)
      | cons z zs =>
        rw [lexLt] at hab hbc ⊢
        by_cases h1 : x.toNat < y.toNat
        · by_cases h2 : y.toNat < z.toNat
          · rw [if_pos (by omega)]
          · rw [if_neg h2] at hbc
            by_cases h3 : z.toNat < y.toNat
            · rw [if_pos h3] at hbc
              exact absurd hbc (by simp)
            · rw [if_pos (by omega)]
        · rw [if_neg h1] at hab
          by_cases h1' : y.toNat < x.toNat
          · rw [if_pos h1'] at hab
            exact absurd hab (by simp)
          · rw [if_neg h1'] at hab
            by_cases h2 : y.toNat < z.toNat
            · rw [if_pos (by omega)]
            · rw [if_neg h2] at hbc
              by_cases h3 : z.toNat < y.toNat
              · rw [if_pos h3] at hbc
                exact absurd hbc (by simp)
              · rw [if_neg h3] at hbc
                rw [if_neg (by omega), if_neg (by omega)]
                exact ih ys zs hab hbc

theorem appendArr_nil : ∀ (m : JsonArr), appendArr m .nil = m
  | .nil => rfl
  | .cons _ xs => by rw [appendArr, appendArr_nil xs]

theorem snocArr_eq_appendArr : ∀ (acc : JsonArr) (x : Json),
    snocArr acc x = appendArr acc (.cons x .nil)
  | .nil, _ => rfl
  | .cons _ ys, x => by rw [snocArr, appendArr, snocArr_eq_appendArr ys x]

theorem appendArr_snoc : ∀ (acc : JsonArr) (x : Json) (m : JsonArr),
    appendArr (snocArr acc x) m = appendArr acc (.cons x m)
  | .nil, _, _ => rfl
  | .cons _ ys, x, m => by
    rw [snocArr, appendArr, appendArr, appendArr_snoc ys x m]

theorem appendObj_nil : ∀ (m : JsonObj), appendObj m .nil = m
  | .nil => rfl
  | .cons _ _ tl => by rw [appendObj, appendObj_nil tl]

theorem insertObj_appendObj : ∀ (acc : JsonObj) (k : Str) (v : Json),
    allKeysBelow k acc → ∀ m, appendObj (insertObj k v acc) m
      = appendObj acc (.cons k v m)
  | .nil, _, _, _, _ => rfl
  | .cons k' v' tl, k, v, hbelow, m => by
    obtain ⟨hk', htl⟩ := hbelow
    rw [insertObj, if_neg (by rw [lexLt_asymm k' k hk']; simp),
      if_neg (by intro h; rw [h, lexLt_irrefl] at hk'; exact Bool.noConfusion hk'),
      appendObj, appendObj, insertObj_appendObj tl k v htl m]

theorem allKeysBelow_appendObj : ∀ (acc : JsonObj) (k k' : Str) (v : Json),
    allKeysBelow k acc → lexLt k k' = true →
    allKeysBelow k' (appendObj acc (.cons k v .nil))
  | .nil, _, _, _, _, hkk => ⟨hkk, trivial⟩
  | .cons k0 v0 tl, k, k', v, hbelow, hkk => by
    obtain ⟨h0, htl⟩ := hbelow
    exact ⟨lexLt_trans k0 k k' h0 hkk, allKeysBelow_appendObj tl k k' v htl hkk⟩

lemma escapeChar_length_pos (c : Char) : 1 ≤ (escapeChar c).length := by
  rw [escapeChar]
  split_ifs <;> simp

lemma escapeString_length : ∀ (s : Str), s.length ≤ (escapeString s).length := by
  intro s
  induction s with
  | nil => simp [escapeString]
  | cons c cs ih =>
    rw [escapeString, List.length_append, List.length_cons]
    have := escapeChar_length_pos c
    omega

lemma isDigitChar_not_special {c : Char} (h : isDigitChar c = true) :
    isJsonWs c = false ∧ c ≠ ']' ∧ c ≠ rbrace ∧ c ≠ ',' := by
  refine ⟨?_, ?_, ?_, ?_⟩
  · have h1 : c ≠ ' ' := fun he => absurd (he ▸ h) (by decide)
    have h2 : c ≠ '\t' := fun he => absurd (he ▸ h) (by decide)
    have h3 : c ≠ '\n' := fun he => absurd (he ▸ h) (by decide)
    have h4 : c ≠ Char.ofNat 13 := fun he => absurd (he ▸ h) (by decide)
    simp [isJsonWs, h1, h2, h3, h4]
  · exact fun he => absurd (he ▸ h) (by decide)
  · exact fun he => absurd (he ▸ h) (by decide)
  · exact fun he => absurd (he ▸ h) (by decide)

lemma dump_head (j : Json) : ∃ hd tl, dump j = hd :: tl ∧
    isJsonWs hd = false ∧ hd ≠ ']' ∧ hd ≠ rbrace ∧ hd ≠ ',' := by
  cases j with
  | null => exact ⟨'n', chars "ull", rfl, by decide, by decide, by decide, by decide⟩
  | bool b =>
    cases b with
    | true => exact ⟨'t', chars "rue", rfl, by decide, by decide, by decide, by decide⟩
    | false => exact ⟨'f', chars "alse", rfl, by decide, by decide, by decide, by decide⟩
  | num n =>
    show ∃ hd tl, intRepr n = hd :: tl ∧ _
    rw [intRepr]
    split_ifs with hneg
    · exact ⟨'-', natRepr n.natAbs, rfl, by decide, by decide, by decide, by decide⟩
    · rcases hcons : natRepr n.toNat with _ | ⟨hd, tl⟩
      · exact absurd hcons (natRepr_ne_nil n.toNat)
      · have hdig : isDigitChar hd = true := by
          refine natRepr_digits n.toNat hd ?_
          rw [hcons]
          exact List.mem_cons_self hd tl
        obtain ⟨p1, p2, p3, p4⟩ := isDigitChar_not_special hdig
        exact ⟨hd, tl, rfl, p1, p2, p3, p4⟩
  | str s =>
    exact ⟨'"', escapeString s ++ ['"'], rfl, by decide, by decide, by decide, by decide⟩
  | arr xs =>
    cases xs with
    | nil => exact ⟨'[', [']'], rfl, by decide, by decide, by decide, by decide⟩
    | cons x xs' =>
      exact ⟨'[', (dump x ++ dumpArrTail xs') ++ [']'], rfl,
        by decide, by decide, by decide, by decide⟩
  | obj kvs =>
    cases kvs with
    | nil => exact ⟨lbrace, [rbrace], rfl, by decide, by decide, by decide, by decide⟩
    | cons k v tl =>
      exact ⟨lbrace,
        ('"' :: escapeString k ++ '"' :: ':' :: dump v ++ dumpObjTail tl) ++ [rbrace],
        rfl, by decide, by decide, by decide, by decide⟩

lemma fuelVal_pos (j : Json) : 1 ≤ fuelVal j := by
  cases j with
  | null => rw [fuelVal]
  | bool b => rw [fuelVal]
  | num n => rw [fuelVal]
  | str s => rw [fuelVal]
  | arr xs =>
    cases xs with
    | nil => rw [fuelVal]
    | cons x xs' => rw [fuelVal]; omega
  | obj kvs =>
    cases kvs with
    | nil => rw [fuelVal]
    | cons k v tl => rw [fuelVal]; omega

lemma fuelArrLoop_pos (x : Json) (xs : JsonArr) : 1 ≤ fuelArrLoop x xs := by
  cases xs with
  | nil => rw [fuelArrLoop]; omega
  | cons y ys => rw [fuelArrLoop]; omega

lemma fuelObjLoop_pos (v : Json) (kvs : JsonObj) : 1 ≤ fuelObjLoop v kvs := by
  cases kvs with
  | nil => rw [fuelObjLoop]; omega
  | cons k v' tl => rw [fuelObjLoop]; omega

lemma parseF_value_step (f : Nat) (c : Char) (t : Str) (h : isJsonWs c = false) :
    parseF (f + 1) .value (c :: t)
      = (if c = 'n' then
           match t with
           | 'u' :: 'l' :: 'l' :: r => some (.null, r)
           | _ => none
         else if c = 't' then
           match t with
           | 'r' :: 'u' :: 'e' :: r => some (.bool true, r)
           | _ => none
         else if c = 'f' then
           match t with
           | 'a' :: 'l' :: 's' :: 'e' :: r => some (.bool false, r)
           | _ => none
         else if c = '"' then
           match parseStringBody t.length t with
           | some (s', r) => some (.str s', r)
           | none => none
         else if c = '[' then
           match skipWs t with
           | c' :: r =>
             if c' = ']' then some (.arr .nil, r)
             else parseF f (.arrayItems .nil) t
           | [] => parseF f (.arrayItems .nil) t
         else if c = lbrace then
           match skipWs t with
           | c' :: r =>
             if c' = rbrace then some (.obj .nil, r)
             else parseF f (.objectItems .nil) t
           | [] => none
         else if c = '-' || isDigitChar c then parseNumber (c :: t)
         else none) := by
  have h0 : parseF (f + 1) .value (c :: t)
      = (match skipWs (c :: t) with
         | [] => none
         | cc :: rest =>
           if cc = 'n' then
             match rest with
             | 'u' :: 'l' :: 'l' :: r => some (.null, r)
             | _ => none
           else if cc = 't' then
             match rest with
             | 'r' :: 'u' :: 'e' :: r => some (.bool true, r)
             | _ => none
           else if cc = 'f' then
             match rest with
             | 'a' :: 'l' :: 's' :: 'e' :: r => some (.bool false, r)
             | _ => none
           else if cc = '"' then
             match parseStringBody rest.length rest with
             | some (s', r) => some (.str s', r)
             | none => none
           else if cc = '[' then
             match skipWs rest with
             | c' :: r =>
               if c' = ']' then some (.arr .nil, r)
               else parseF f (.arrayItems .nil) rest
             | [] => parseF f (.arrayItems .nil) rest
           else if cc = lbrace then
             match skipWs rest with
             | c' :: r =>
               if c' = rbrace then some (.obj .nil, r)
               else parseF f (.objectItems .nil) rest
             | [] => none
           else if cc = '-' || isDigitChar cc then parseNumber (cc :: rest)
           else none) := rfl
  rw [h0, skipWs_cons_of_not_ws t h]
  rfl

lemma parseF_arrayItems_step (f : Nat) (acc : JsonArr) (s : Str) :
    parseF (f + 1) (.arrayItems acc) s
      = (match parseF f .value s with
         | none => none
         | some (j, r) =>
           match skipWs r with
           | c2 :: r2 =>
             if c2 = ',' then parseF f (.arrayItems (snocArr acc j)) r2
             else if c2 = ']' then some (.arr (snocArr acc j), r2)
             else none
           | [] => none) := rfl

lemma parseF_objectItems_step (f : Nat) (acc : JsonObj) (s : Str) :
    parseF (f + 1) (.objectItems acc) s
      = (match skipWs s with
         | c0 :: r =>
           if c0 = '"' then
             match parseStringBody r.length r with
             | some (k, r2) =>
               match skipWs r2 with
               | c3 :: r3 =>
                 if c3 = ':' then
                   match parseF f .value r3 with
                   | some (v, r4) =>
                     match skipWs r4 with
                     | c5 :: r5 =>
                       if c5 = ',' then parseF f (.objectItems (insertObj k v acc)) r5
                       else if c5 = rbrace then some (.obj (insertObj k v acc), r5)
                       else none
                     | [] => none
                   | none => none
                 else none
               | [] => none
             | none => none
           else none
         | [] => none) := rfl

lemma pval_null : PVal .null := by
  intro _ fuel rest hfuel hstop
  cases fuel with
  | zero => rw [fuelVal] at hfuel; omega
  | succ f =>
    have hd : dump Json.null ++ rest = 'n' :: 'u' :: 'l' :: 'l' :: rest := rfl
    rw [hd, parseF_value_step f 'n' _ (by decide), if_pos rfl]
    rfl

lemma pval_bool (b : Bool) : PVal (.bool b) := by
  intro _ fuel rest hfuel hstop
  cases fuel with
  | zero => rw [fuelVal] at hfuel; omega
  | succ f =>
    cases b with
    | true =>
      have hd : dump (Json.bool true) ++ rest = 't' :: 'r' :: 'u' :: 'e' :: rest := rfl
      rw [hd, parseF_value_step f 't' _ (by decide), if_neg (by decide), if_pos rfl]
      rfl
    | false =>
      have hd : dump (Json.bool false) ++ rest
          = 'f' :: 'a' :: 'l' :: 's' :: 'e' :: rest := rfl
      rw [hd, parseF_value_step f 'f' _ (by decide), if_neg (by decide),
        if_neg (by decide), if_pos rfl]
      rfl

lemma pval_num (n : Int) : PVal (.num n) := by
  intro _ fuel rest hfuel hstop
  cases fuel with
  | zero => rw [fuelVal] at hfuel; omega
  | succ f =>
    rw [show dump (Json.num n) = intRepr n from rfl, intRepr]
    split_ifs with hneg
    · rw [List.cons_append, parseF_value_step f '-' _ (by decide)]
      rw [if_neg (by decide), if_neg (by decide), if_neg (by decide), if_neg (by decide),
        if_neg (by decide), if_neg (by decide), if_pos (by decide)]
      have harg : '-' :: (natRepr n.natAbs ++ rest) = intRepr n ++ rest := by
        rw [intRepr, if_pos hneg, List.cons_append]
      rw [harg]
      exact parseNumber_intRepr n rest hstop
    · rcases hcons : natRepr n.toNat with _ | ⟨hd, tl⟩
      · exact absurd hcons (natRepr_ne_nil n.toNat)
      · have hdig : isDigitChar hd = true := by
          refine natRepr_digits n.toNat hd ?_
          rw [hcons]
          exact List.mem_cons_self hd tl
        obtain ⟨hws, _, _, _⟩ := isDigitChar_not_special hdig
        rw [List.cons_append, parseF_value_step f hd _ hws]
        rw [if_neg (fun he => absurd (he ▸ hdig) (by decide)),
          if_neg (fun he => absurd (he ▸ hdig) (by decide)),
          if_neg (fun he => absurd (he ▸ hdig) (by decide)),
          if_neg (fun he => absurd (he ▸ hdig) (by decide)),
          if_neg (fun he => absurd (he ▸ hdig) (by decide)),
          if_neg (fun he => absurd (he ▸ hdig) (by decide)),
          if_pos (by rw [hdig]; simp)]
        have harg : hd :: (tl ++ rest) = intRepr n ++ rest := by
          rw [intRepr, if_neg hneg, hcons, List.cons_append]
        rw [harg]
        exact parseNumber_intRepr n rest hstop

lemma pval_str (s : Str) : PVal (.str s) := by
  intro _ fuel rest hfuel hstop
  cases fuel with
  | zero => rw [fuelVal] at hfuel; omega
  | succ f =>
    have hd : dump (Json.str s) ++ rest = '"' :: (escapeString s ++ '"' :: rest) := by
      show ('"' :: escapeString s ++ ['"']) ++ rest = _
      simp
    rw [hd, parseF_value_step f '"' _ (by decide)]
    rw [if_neg (by decide), if_neg (by decide), if_neg (by decide), if_pos rfl]
    have hlen : s.length < (escapeString s ++ '"' :: rest).length := by
      have := escapeString_length s
      simp only [List.length_append, List.length_cons]
      omega
    rw [parseStringBody_escape s _ rest hlen]

lemma ploop_arr_nil : PArrLoop .nil :=
  fun _ _ heq => JsonArr.noConfusion heq

lemma ploop_arr_cons (x : Json) (xs : JsonArr) (hx : PVal x) (hxs : PArrLoop xs) :
    PArrLoop (.cons x xs) := by
  intro hd tl heq hcanon fuel acc rest hfuel hstop
  injection heq with he1 he2
  subst he1
  subst he2
  have hcx : canonical x = true ∧ canonicalArr xs = true := by
    rw [canonicalArr, Bool.and_eq_true] at hcanon
    exact hcanon
  cases fuel with
  | zero =>
    have := fuelArrLoop_pos x xs
    omega
  | succ f =>
    rw [parseF_arrayItems_step]
    cases xs with
    | nil =>
      have hfx : fuelVal x ≤ f := by rw [fuelArrLoop] at hfuel; omega
      have hstop2 : stopper (dumpArrTail JsonArr.nil ++ ']' :: rest) :=
        Or.inr (Or.inl rfl)
      rw [hx hcx.1 f _ hfx hstop2]
      have hR : dumpArrTail JsonArr.nil ++ ']' :: rest = ']' :: rest := rfl
      rw [hR]
      dsimp only
      rw [skipWs_cons_of_not_ws rest (by decide)]
      dsimp only
      rw [if_neg (by decide), if_pos rfl, snocArr_eq_appendArr acc x]
    | cons y ys =>
      have hfx : fuelVal x ≤ f ∧ fuelArrLoop y ys ≤ f := by
        rw [fuelArrLoop] at hfuel
        omega
      have hstop2 : stopper (dumpArrTail (JsonArr.cons y ys) ++ ']' :: rest) :=
        Or.inl rfl
      rw [hx hcx.1 f _ hfx.1 hstop2]
      have hR : dumpArrTail (JsonArr.cons y ys) ++ ']' :: rest
          = ',' :: (dump y ++ (dumpArrTail ys ++ ']' :: rest)) := by
        show (',' :: dump y ++ dumpArrTail ys) ++ ']' :: rest = _
        simp
      rw [hR]
      dsimp only
      rw [skipWs_cons_of_not_ws _ (by decide)]
      dsimp only
      rw [if_pos rfl]
      have hrec := hxs y ys rfl hcx.2 f (snocArr acc x) rest hfx.2 hstop
      rw [hrec, appendArr_snoc]

lemma pval_arr (xs : JsonArr) (hxs : PArrLoop xs) : PVal (.arr xs) := by
  intro hcanon fuel rest hfuel hstop
  cases xs with
  | nil =>
    cases fuel with
    | zero => rw [fuelVal] at hfuel; omega
    | succ f =>
      have hd : dump (Json.arr .nil) ++ rest = '[' :: ']' :: rest := rfl
      rw [hd, parseF_value_step f '[' _ (by decide)]
      rw [if_neg (by decide), if_neg (by decide), if_neg (by decide), if_neg (by decide),
        if_pos rfl]
      rw [skipWs_cons_of_not_ws rest (by decide)]
      dsimp only
      rw [if_pos rfl]
  | cons x xs' =>
    cases fuel with
    | zero =>
      rw [fuelVal] at hfuel
      have := fuelArrLoop_pos x xs'
      omega
    | succ f =>
      have hfl : fuelArrLoop x xs' ≤ f := by
        rw [fuelVal] at hfuel
        omega
      have hcanon' : canonicalArr (JsonArr.cons x xs') = true := hcanon
      have hd : dump (Json.arr (.cons x xs')) ++ rest
          = '[' :: (dump x ++ (dumpArrTail xs' ++ ']' :: rest)) := by
        show ('[' :: (dump x ++ dumpArrTail xs') ++ [']']) ++ rest = _
        simp
      rw [hd, parseF_value_step f '[' _ (by decide)]
      rw [if_neg (by decide), if_neg (by decide), if_neg (by decide), if_neg (by decide),
        if_pos rfl]
      obtain ⟨h1, t1, hdump, hws1, hne1, _, _⟩ := dump_head x
      have ht : dump x ++ (dumpArrTail xs' ++ ']' :: rest)
          = h1 :: (t1 ++ (dumpArrTail xs' ++ ']' :: rest)) := by
        rw [hdump]
        rfl
      rw [ht, skipWs_cons_of_not_ws _ hws1]
      dsimp only
      rw [if_neg hne1, ← ht]
      have hrec := hxs x xs' rfl hcanon' f .nil rest hfl hstop
      rw [hrec]
      rfl

lemma ploop_obj_nil : PObjLoop .nil :=
  fun _ _ _ heq => JsonObj.noConfusion heq

lemma ploop_obj_cons (k : Str) (v : Json) (kvs : JsonObj) (hv : PVal v)
    (htl : PObjLoop kvs) : PObjLoop (.cons k v kvs) := by
  intro k0 v0 tl0 heq hcanon fuel acc rest hfuel hstop hbelow
  injection heq with he1 he2 he3
  subst he1
  subst he2
  subst he3
  have hc : canonical v = true ∧ keyBelow k kvs = true ∧ canonicalObj kvs = true := by
    rw [canonicalObj, Bool.and_eq_true, Bool.and_eq_true] at hcanon
    exact ⟨hcanon.1.1, hcanon.1.2, hcanon.2⟩
  cases fuel with
  | zero =>
    have := fuelObjLoop_pos v kvs
    omega
  | succ f =>
    rw [parseF_objectItems_step]
    rw [skipWs_cons_of_not_ws _ (by decide)]
    dsimp only
    rw [if_pos rfl]
    have hlen : k.length
        < (escapeString k ++ '"' :: ':' :: (dump v ++ (dumpObjTail kvs ++ rbrace :: rest))).length := by
      have := escapeString_length k
      simp only [List.length_append, List.length_cons]
      omega
    rw [parseStringBody_escape k _ _ hlen]
    dsimp only
    rw [skipWs_cons_of_not_ws _ (by decide)]
    dsimp only
    rw [if_pos rfl]
    cases kvs with
    | nil =>
      have hfv : fuelVal v ≤ f := by rw [fuelObjLoop] at hfuel; omega
      have hstop2 : stopper (dumpObjTail JsonObj.nil ++ rbrace :: rest) :=
        Or.inr (Or.inr rfl)
      rw [hv hc.1 f _ hfv hstop2]
      have hR : dumpObjTail JsonObj.nil ++ rbrace :: rest = rbrace :: rest := rfl
      rw [hR]
      dsimp only
      rw [skipWs_cons_of_not_ws rest (by decide)]
      dsimp only
      rw [if_neg (by decide), if_pos rfl]
      rw [← appendObj_nil (insertObj k v acc), insertObj_appendObj acc k v hbelow]
    | cons k1 v1 tl1 =>
      have hfv : fuelVal v ≤ f ∧ fuelObjLoop v1 tl1 ≤ f := by
        rw [fuelObjLoop] at hfuel
        omega
      have hstop2 : stopper (dumpObjTail (JsonObj.cons k1 v1 tl1) ++ rbrace :: rest) :=
        Or.inl rfl
      rw [hv hc.1 f _ hfv.1 hstop2]
      have hR : dumpObjTail (JsonObj.cons k1 v1 tl1) ++ rbrace :: rest
          = ',' :: ('"' :: (escapeString k1 ++ '"' :: ':'
              :: (dump v1 ++ (dumpObjTail tl1 ++ rbrace :: rest)))) := by
        show (',' :: '"' :: escapeString k1 ++ '"' :: ':' :: dump v1 ++ dumpObjTail tl1)
            ++ rbrace :: rest = _
        simp
      rw [hR]
      dsimp only
      rw [skipWs_cons_of_not_ws _ (by decide)]
      dsimp only
      rw [if_pos rfl]
      have hkk : lexLt k k1 = true := hc.2.1
      have hins : insertObj k v acc = appendObj acc (.cons k v .nil) := by
        rw [← appendObj_nil (insertObj k v acc), insertObj_appendObj acc k v hbelow]
      have hbelow' : allKeysBelow k1 (insertObj k v acc) := by
        rw [hins]
        exact allKeysBelow_appendObj acc k k1 v hbelow hkk
      have hrec := htl k1 v1 tl1 rfl hc.2.2 f (insertObj k v acc) rest hfv.2 hstop hbelow'
      rw [hrec, insertObj_appendObj acc k v hbelow]

lemma pval_obj (kvs : JsonObj) (hkvs : PObjLoop kvs) : PVal (.obj kvs) := by
  intro hcanon fuel rest hfuel hstop
  cases kvs with
  | nil =>
    cases fuel with
    | zero => rw [fuelVal] at hfuel; omega
    | succ f =>
      have hd : dump (Json.obj .nil) ++ rest = lbrace :: rbrace :: rest := rfl
      rw [hd, parseF_value_step f lbrace _ (by decide)]
      rw [if_neg (by decide), if_neg (by decide), if_neg (by decide), if_neg (by decide),
        if_neg (by decide), if_pos rfl]
      rw [skipWs_cons_of_not_ws rest (by decide)]
      dsimp only
      rw [if_pos rfl]
  | cons k v tl =>
    cases fuel with
    | zero =>
      rw [fuelVal] at hfuel
      have := fuelObjLoop_pos v tl
      omega
    | succ f =>
      have hfl : fuelObjLoop v tl ≤ f := by
        rw [fuelVal] at hfuel
        omega
      have hcanon' : canonicalObj (JsonObj.cons k v tl) = true := hcanon
      have hd : dump (Json.obj (.cons k v tl)) ++ rest
          = lbrace :: ('"' :: (escapeString k ++ '"' :: ':'
              :: (dump v ++ (dumpObjTail tl ++ rbrace :: rest)))) := by
        show (lbrace :: ('"' :: escapeString k ++ '"' :: ':' :: dump v ++ dumpObjTail tl)
            ++ [rbrace]) ++ rest = _
        simp
      rw [hd, parseF_value_step f lbrace _ (by decide)]
      rw [if_neg (by decide), if_neg (by decide), if_neg (by decide), if_neg (by decide),
        if_neg (by decide), if_pos rfl]
      rw [skipWs_cons_of_not_ws _ (by decide)]
      dsimp only
      rw [if_neg (by decide)]
      have hrec := hkvs k v tl rfl hcanon' f .nil rest hfl hstop trivial
      rw [hrec]
      rfl

lemma pval_all (j : Json) : PVal j :=
  @Json.rec PVal PArrLoop PObjLoop pval_null pval_bool pval_num pval_str
    pval_arr pval_obj ploop_arr_nil ploop_arr_cons ploop_obj_nil ploop_obj_cons j

lemma fuelVal_le_dump (j : Json) : fuelVal j ≤ (dump j).length := by
  refine @Json.rec (fun j => fuelVal j ≤ (dump j).length)
    (fun xs => ∀ hd tl, xs = .cons hd tl →
      fuelArrLoop hd tl ≤ 1 + (dump hd).length + (dumpArrTail tl).length)
    (fun kvs => ∀ k v tl, kvs = .cons k v tl →
      fuelObjLoop v tl ≤ 1 + (dump v).length + (dumpObjTail tl).length)
    ?_ ?_ ?_ ?_ ?_ ?_ ?_ ?_ ?_ ?_ j
  · show fuelVal Json.null ≤ (dump Json.null).length
    rw [fuelVal]
    decide
  · intro b
    cases b with
    | true =>
      show fuelVal (Json.bool true) ≤ (dump (Json.bool true)).length
      rw [fuelVal]
      decide
    | false =>
      show fuelVal (Json.bool false) ≤ (dump (Json.bool false)).length
      rw [fuelVal]
      decide
  · intro n
    show fuelVal (Json.num n) ≤ (dump (Json.num n)).length
    rw [fuelVal, show dump (Json.num n) = intRepr n from rfl, intRepr]
    split_ifs
    · simp
    · rcases hcons : natRepr n.toNat with _ | ⟨hd, tl⟩
      · exact absurd hcons (natRepr_ne_nil n.toNat)
      · simp
  · intro s
    show fuelVal (Json.str s) ≤ (dump (Json.str s)).length
    rw [fuelVal, show dump (Json.str s) = ('"' :: escapeString s) ++ ['"'] from rfl]
    simp
  · intro xs hxs
    cases xs with
    | nil =>
      show fuelVal (Json.arr JsonArr.nil) ≤ (dump (Json.arr JsonArr.nil)).length
      rw [fuelVal]
      decide
    | cons x xs' =>
      show fuelVal (Json.arr (JsonArr.cons x xs'))
          ≤ (dump (Json.arr (JsonArr.cons x xs'))).length
      rw [fuelVal]
      have h1 := hxs x xs' rfl
      have h2 : 2 + (dump x).length + (dumpArrTail xs').length
          ≤ (dump (Json.arr (JsonArr.cons x xs'))).length := by
        show 2 + (dump x).length + (dumpArrTail xs').length
            ≤ (('[' :: (dump x ++ dumpArrTail xs')) ++ [']']).length
        simp only [List.length_append, List.length_cons, List.length_nil]
        omega
      omega
  · intro kvs hkvs
    cases kvs with
    | nil =>
      show fuelVal (Json.obj JsonObj.nil) ≤ (dump (Json.obj JsonObj.nil)).length
      rw [fuelVal]
      decide
    | cons k v tl =>
      show fuelVal (Json.obj (JsonObj.cons k v tl))
          ≤ (dump (Json.obj (JsonObj.cons k v tl))).length
      rw [fuelVal]
      have h1 := hkvs k v tl rfl
      have h2 : 2 + (dump v).length + (dumpObjTail tl).length
          ≤ (dump (Json.obj (JsonObj.cons k v tl))).length := by
        show 2 + (dump v).length + (dumpObjTail tl).length
            ≤ ((lbrace :: ('"' :: escapeString k ++ '"' :: ':' :: dump v ++ dumpObjTail tl))
              ++ [rbrace]).length
        simp only [List.length_append, List.length_cons, List.length_nil]
        omega
      omega
  · intro hd tl heq
    exact JsonArr.noConfusion heq
  · intro y ys hy hys hd tl heq
    injection heq with he1 he2
    subst he1
    subst he2
    cases ys with
    | nil =>
      rw [fuelArrLoop]
      have h0 : (dumpArrTail JsonArr.nil).length = 0 := rfl
      omega
    | cons z zs =>
      rw [fuelArrLoop]
      have h1 := hys z zs rfl
      have h2 : 1 + (dump z).length + (dumpArrTail zs).length
          ≤ (dumpArrTail (JsonArr.cons z zs)).length := by
        show 1 + (dump z).length + (dumpArrTail zs).length
            ≤ ((',' :: dump z) ++ dumpArrTail zs).length
        simp only [List.length_append, List.length_cons]
        omega
      omega
  · intro k v tl heq
    exact JsonObj.noConfusion heq
  · intro k0 v0 tl0 hv0 htl0 k v tl heq
    injection heq with he1 he2 he3
    subst he1
    subst he2
    subst he3
    cases tl0 with
    | nil =>
      rw [fuelObjLoop]
      have h0 : (dumpObjTail JsonObj.nil).length = 0 := rfl
      omega
    | cons k1 v1 tl1 =>
      rw [fuelObjLoop]
      have h1 := htl0 k1 v1 tl1 rfl
      have h2 : 1 + (dump v1).length + (dumpObjTail tl1).length
          ≤ (dumpObjTail (JsonObj.cons k1 v1 tl1)).length := by
        show 1 + (dump v1).length + (dumpObjTail tl1).length
            ≤ ((',' :: '"' :: escapeString k1 ++ '"' :: ':' :: dump v1 ++ dumpObjTail tl1)).length
        simp only [List.length_append, List.length_cons]
        omega
      omega

lemma parse_dump (j : Json) (hcanon : canonical j = true) :
    parseJson (dump j) = some j := by
  have hfuel : fuelVal j ≤ 2 * (dump j).length + 2 := by
    have := fuelVal_le_dump j
    omega
  have h1 := pval_all j hcanon (2 * (dump j).length + 2) [] hfuel trivial
  rw [List.append_nil] at h1
  rw [parseJson, h1]
  rfl

lemma read_write (files : List ((Str × Str) × Str)) (key fname content : Str) :
    read_file (write_file files key fname content) key fname = some content := by
  induction files with
  | nil => rw [write_file, read_file, if_pos ⟨rfl, rfl⟩]
  | cons e rest ih =>
    obtain ⟨⟨k, f⟩, c⟩ := e
    rw [write_file]
    by_cases h : k = key ∧ f = fname
    · rw [if_pos h, read_file, if_pos h]
    · rw [if_neg h, read_file, if_neg h, ih]

/-- C3: for every non-empty key whose directory exists, every filename with a
non-empty sanitized form, and every canonical document whose compact
serialization is at most 1 MiB, `put_json` succeeds and `get_json` on the
resulting state with the same key and filename returns a document equal to
the one stored (round-trip law). -/
theorem put_get_roundtrip (fs : FileSystem) (key filename : Str) (d : Json)
    (hkey : key ≠ []) (hdir : key_directory_exists fs key = true)
    (hsan : sanitize_filename filename ≠ [])
    (hcanon : canonical d = true)
    (hsize : (dump d).length ≤ MAX_JSON_SIZE_BYTES) :
    (put_json fs key filename d).1 = .ok ()
      ∧ get_json (put_json fs key filename d).2 key filename = .ok d := by
  have hfname : filename ≠ [] := by
    intro h
    apply hsan
    rw [h]
    rfl
  have hput : put_json fs key filename d
      = (.ok (), { fs with
          files := write_file fs.files key (ensure_json_extension (sanitize_filename filename)) (dump d) }) := by
    simp only [put_json]
    rw [if_neg hkey, if_neg (not_not_intro hdir), if_neg hsan, if_neg (by omega)]
  refine ⟨by rw [hput], ?_⟩
  rw [hput]
  simp only [get_json]
  rw [if_neg (by rintro (h | h); exacts [hkey h, hfname h])]
  have hdir2 : key_directory_exists { fs with
      files := write_file fs.files key (ensure_json_extension (sanitize_filename filename)) (dump d) } key = true := hdir
  rw [if_neg (not_not_intro hdir2)]
  rw [read_write fs.files key (ensure_json_extension (sanitize_filename filename)) (dump d)]
  dsimp only
  rw [if_neg (by omega), parse_dump d hcanon]

theorem put_get_roundtrip_witness :
    (put_json ⟨[chars "k"], []⟩ (chars "k") (chars "f") (.num 5)).1 = .ok ()
      ∧ get_json (put_json ⟨[chars "k"], []⟩ (chars "k") (chars "f") (.num 5)).2
          (chars "k") (chars "f") = .ok (.num 5) :=
  put_get_roundtrip ⟨[chars "k"], []⟩ (chars "k") (chars "f") (.num 5)
    (by decide) (by decide) (by decide) (by decide) (by decide)
